import Mathlib

/-!
# fontedit: bitmap font data model and source-code generator helpers

A shallow embedding of `lib/src/fontdata.cpp`, `lib/src/fontsourcecodegenerator.cpp`
and `lib/src/sourcecode.h`, with the properties of the specification proved
about it.

Conventions of the embedding:
* `std::size_t` values are natural numbers; where the code multiplies or adds
  two of them the result is reduced modulo `2 ^ 64` (`size_mul`);
* `std::vector<bool>` is `List Bool`, `std::set<std::size_t>` is `Finset Nat`;
* a constructor that throws returns `Except Exception _`;
* an operation with undefined behaviour in the source (integer division by
  zero, `std::isprint` outside the range of `unsigned char`) returns `none`;
* a `std::ostringstream` is an explicit state: the text written so far and the
  formatting flags the code sets.
-/

namespace f2b

/-! ## Definitions -/

/-- Number of values of a 64-bit `std::size_t`. -/
def SIZE_MOD : Nat := 2 ^ 64

/-- The product of two `std::size_t` values, as the machine computes it. -/
def size_mul (a b : Nat) : Nat := (a * b) % SIZE_MOD

/-- Exceptions thrown by the library: `std::logic_error` with its message. -/
inductive Exception where
  | logic_error (what : String)
  deriving DecidableEq, Repr

/-- The exception thrown by `Glyph::Glyph(Size, std::vector<bool>)`, which the
specification calls `SizeMismatch`. -/
def size_mismatch : Exception :=
  Exception.logic_error "pixels size must equal glyph size (width * height)"

/-- The value `std::distance(first, std::find(first, last, v))`: the index of the
first element equal to `v`, or the length of the range when there is none. -/
def find_distance (v : Bool) : List Bool → Nat
  | [] => 0
  | p :: ps => if p = v then 0 else find_distance v ps + 1

namespace font

/-- Modelled from the spec: `Size` is declared in `fontdata.h`, which is not
among the sources; it is the pair `{width, height}` of grid dimensions, which
the code uses as `std::size_t` values. -/
structure Size where
  width : Nat
  height : Nat
  deriving DecidableEq, Repr

/-- Modelled from the spec: `Point` is declared in `fontdata.h`; the pixel
coordinate `{x, y}` built by `Face::read_glyphs`. -/
structure Point where
  x : Nat
  y : Nat
  deriving DecidableEq, Repr

/-- Modelled from the spec: `Margins` is declared in `fontdata.h`; the pair
`{top, bottom}` of row counts. -/
structure Margins where
  top : Nat
  bottom : Nat
  deriving DecidableEq, Repr

/-- Modelled from the spec: the data members of `Glyph` (declared in
`fontdata.h`): its size and its row-major pixel sequence. -/
structure Glyph where
  size_ : Size
  pixels_ : List Bool
  deriving DecidableEq, Repr

/-- The constructor `Glyph::Glyph(Size sz)`: `sz.width * sz.height` pixels, all off. -/
def Glyph.ofSize (sz : Size) : Glyph :=
  { size_ := sz, pixels_ := List.replicate (size_mul sz.width sz.height) false }

/-- The constructor `Glyph::Glyph(Size sz, std::vector<bool> pixels)`: throws when
the number of pixels is not `sz.width * sz.height`. -/
def Glyph.ofPixels (sz : Size) (pixels : List Bool) : Except Exception Glyph :=
  if pixels.length ≠ size_mul sz.width sz.height then
    Except.error size_mismatch
  else
    Except.ok { size_ := sz, pixels_ := pixels }

/-- The method `Glyph::clear`. -/
def Glyph.clear (g : Glyph) : Glyph :=
  { g with pixels_ := List.replicate (size_mul g.size_.width g.size_.height) false }

/-- The method `Glyph::top_margin`: the distance from the beginning to the first set
pixel, divided by the width (`none`: division by zero). -/
def Glyph.top_margin (g : Glyph) : Option Nat :=
  let first_set_pixel := find_distance true g.pixels_
  if g.size_.width = 0 then none else some (first_set_pixel / g.size_.width)

/-- The method `Glyph::bottom_margin`: the same search over the reversed range. -/
def Glyph.bottom_margin (g : Glyph) : Option Nat :=
  let last_set_pixel := find_distance true g.pixels_.reverse
  if g.size_.width = 0 then none else some (last_set_pixel / g.size_.width)

/-- Modelled from the spec: the data members of `Face` (declared in
`fontdata.h`): the face size, the glyph sequence and the set of exported glyph
indices. -/
structure Face where
  sz_ : Size
  glyphs_ : List Glyph
  exported_glyph_ids_ : Finset Nat
  deriving DecidableEq

/-- Modelled from the spec: the interface `FaceReader` (declared in
`fontdata.h`): the uniform glyph size, the glyph count and the query whether a
pixel of a glyph is set. -/
structure FaceReader where
  font_size : Size
  num_glyphs : Nat
  is_pixel_set : Nat → Point → Bool

/-- The constructor `Face::Face(Size, std::vector<Glyph>, std::set<std::size_t>)`:
the three members are taken as given. -/
def Face.ofParts (size : Size) (glyphs : List Glyph) (exported_glyph_ids : Finset Nat) : Face :=
  { sz_ := size, glyphs_ := glyphs, exported_glyph_ids_ := exported_glyph_ids }

/-- The two inner loops of `Face::read_glyphs` for glyph `i`: for every row `y` and
every column `x`, the queried pixel is pushed back. -/
def Face.read_pixels (data : FaceReader) (i : Nat) : List Bool :=
  (List.range data.font_size.height).foldl
    (fun pixels y =>
      (List.range data.font_size.width).foldl
        (fun pixels x => pixels ++ [data.is_pixel_set i { x := x, y := y }]) pixels)
    []

/-- The function `Face::read_glyphs`: one glyph per index, built with the checking
constructor and pushed back. -/
def Face.read_glyphs (data : FaceReader) : Except Exception (List Glyph) :=
  (List.range data.num_glyphs).foldlM
    (fun glyphs i => do
      let g ← Glyph.ofPixels data.font_size (Face.read_pixels data i)
      pure (glyphs ++ [g]))
    []

/-- The constructor `Face::Face(const FaceReader &)`: delegates to the three-argument
constructor, then inserts every glyph index into the exported set. The call
passes two arguments; the third, whose default is declared in `fontdata.h`, is
taken as the empty set. -/
def Face.ofReader (data : FaceReader) : Except Exception Face := do
  let glyphs ← Face.read_glyphs data
  let face := Face.ofParts data.font_size glyphs ∅
  pure { face with
    exported_glyph_ids_ :=
      (List.range face.glyphs_.length).foldl (fun ids i => insert i ids)
        face.exported_glyph_ids_ }

/-- The body of the lambda in `Face::calculate_margins`, applied to one glyph. -/
def Face.margins_step (m : Margins) (g : Glyph) : Option Margins := do
  let t ← g.top_margin
  let b ← g.bottom_margin
  pure { top := min m.top t, bottom := min m.bottom b }

/-- The method `Face::calculate_margins`: both accumulators start at the face height
and every glyph is folded in. -/
def Face.calculate_margins (f : Face) : Option Margins :=
  f.glyphs_.foldlM Face.margins_step { top := f.sz_.height, bottom := f.sz_.height }

/-! ### Notions of the specification -/

/-- The class invariant of `Glyph`: the number of pixels is the product the
constructors compute. -/
def Glyph.valid (g : Glyph) : Prop :=
  g.pixels_.length = size_mul g.size_.width g.size_.height

instance (g : Glyph) : Decidable g.valid := by
  unfold Glyph.valid
  infer_instance

/-- Index `i` holds the first set pixel of the row-major sequence. -/
def is_first_set_pixel (l : List Bool) (i : Nat) : Prop :=
  l[i]? = some true ∧ ∀ j, j < i → l[j]? = some false

instance (l : List Bool) (i : Nat) : Decidable (is_first_set_pixel l i) := by
  unfold is_first_set_pixel
  infer_instance

/-- Index `i` holds the last set pixel of the row-major sequence. -/
def is_last_set_pixel (l : List Bool) (i : Nat) : Prop :=
  l[i]? = some true ∧ ∀ j, j < l.length → i < j → l[j]? = some false

instance (l : List Bool) (i : Nat) : Decidable (is_last_set_pixel l i) := by
  unfold is_last_set_pixel
  infer_instance

/-- Row `y` of the glyph is fully empty: each of its `width` pixels, at index
`y * width + x`, is off. -/
def Glyph.row_empty (g : Glyph) (y : Nat) : Prop :=
  ∀ x, x < g.size_.width → g.pixels_[y * g.size_.width + x]? = some false

instance (g : Glyph) (y : Nat) : Decidable (g.row_empty y) := by
  unfold Glyph.row_empty
  infer_instance

/-- Row `y` of the glyph contains a set pixel. -/
def Glyph.row_has_set_pixel (g : Glyph) (y : Nat) : Prop :=
  ∃ x, x < g.size_.width ∧ g.pixels_[y * g.size_.width + x]? = some true

instance (g : Glyph) (y : Nat) : Decidable (g.row_has_set_pixel y) := by
  unfold Glyph.row_has_set_pixel
  infer_instance

end font

/-! ### The source-code generator -/

/-- The state of a `std::ostringstream` as far as the generator uses it: the text
written so far, the base of integer output (`std::hex` or `std::dec`), the fill
character and the field width of the next output. -/
structure ostringstream where
  str : String
  hex : Bool
  fill : Char
  width : Nat

/-- A freshly constructed stream: decimal, filled with blanks, no field width. -/
def ostringstream.new : ostringstream :=
  { str := "", hex := false, fill := ' ', width := 0 }

/-- Formatted output of a character sequence: padded on the left with the fill
character up to the field width, which is then reset. -/
def ostringstream.put (s : ostringstream) (text : List Char) : ostringstream :=
  { s with
    str := s.str ++ String.mk (List.replicate (s.width - text.length) s.fill ++ text)
    width := 0 }

/-- The operator `<<` on a string. -/
def ostringstream.put_string (s : ostringstream) (text : String) : ostringstream :=
  s.put text.toList

/-- The operator `<<` on a `std::size_t`: its digits in the current base, lowercase. -/
def ostringstream.put_size_t (s : ostringstream) (n : Nat) : ostringstream :=
  s.put (Nat.toDigits (if s.hex then 16 else 10) n)

/-- The operator `<<` on a `char`. -/
def ostringstream.put_char (s : ostringstream) (c : Char) : ostringstream :=
  s.put [c]

/-- The manipulator `std::hex`. -/
def ostringstream.set_hex (s : ostringstream) : ostringstream := { s with hex := true }

/-- The manipulator `std::dec`. -/
def ostringstream.set_dec (s : ostringstream) : ostringstream := { s with hex := false }

/-- The manipulator `std::setfill`. -/
def ostringstream.setfill (s : ostringstream) (c : Char) : ostringstream := { s with fill := c }

/-- The manipulator `std::setw`. -/
def ostringstream.setw (s : ostringstream) (n : Nat) : ostringstream := { s with width := n }

/-- The function `std::isprint` of the C library in the default locale: defined for
the values of `unsigned char`, true for the codes 32 to 126. -/
def isprint (c : Nat) : Option Bool :=
  if c ≤ 255 then some (decide (32 ≤ c ∧ c ≤ 126)) else none

namespace FontSourceCodeGenerator

/-- The function `FontSourceCodeGenerator::comment_for_glyph`. -/
def comment_for_glyph (index : Nat) : Option String :=
  let index := (index + 32) % SIZE_MOD
  let s := ostringstream.new
  let s := s.put_string "Character 0x"
  let s := ((s.set_hex.setfill '0').setw 2).put_size_t index
  let s := (s.set_dec.put_string " (").put_size_t index
  match isprint index with
  | none => none
  | some printable =>
    let s :=
      if printable then
        ((s.put_string ": '").put_char (Char.ofNat index)).put_string "'"
      else s
    let s := s.put_string ")"
    some s.str

/-- The lowercase hexadecimal digit of value `d`. -/
def hex_digit (d : Nat) : Char := "0123456789abcdef".toList.getD d '0'

/-- The comment text as the specification words it, for a code-point `c` of at most
255: `Character 0x`, the two lowercase hexadecimal digits of `c`, ` (`, `c` in
decimal, the quoted character when `c` is printable, and `)`. -/
def comment_text (c : Nat) : String :=
  "Character 0x" ++ String.mk [hex_digit (c / 16), hex_digit (c % 16)]
    ++ " (" ++ Nat.repr c
    ++ (if 32 ≤ c ∧ c ≤ 126 then ": '" ++ String.singleton (Char.ofNat c) ++ "'" else "")
    ++ ")"

/-- The function `FontSourceCodeGenerator::lut_value_for_glyph`. -/
def lut_value_for_glyph (index : Nat) : String :=
  if index = 0 then
    "0"
  else
    let s := ostringstream.new
    let s := (s.put_string "bytes_per_char * ").put_size_t index
    s.str

/-- The fields of the C `struct tm` that the format of `current_timestamp` reads:
the broken-down local time `*std::localtime(&t)` of the clock reading
`t = std::time(nullptr)`. -/
structure tm where
  tm_sec : Nat
  tm_min : Nat
  tm_hour : Nat
  tm_mday : Nat
  tm_mon : Nat
  tm_year : Nat
  deriving DecidableEq, Repr

/-- A decimal number in a field of two characters, zero-padded, as the conversions
`%d`, `%m`, `%H`, `%M` and `%S` of `std::put_time` print it. -/
def two_digits (n : Nat) : List Char :=
  if n < 10 then '0' :: Nat.toDigits 10 n else Nat.toDigits 10 n

/-- The characters `std::put_time(&tm, "%d-%m-%Y %H:%M:%S")` writes: day, month
(`tm_mon` counts from 0) and year (`tm_year` counts from 1900), then hour,
minute and second. -/
def put_time (t : tm) : List Char :=
  two_digits t.tm_mday ++ '-' :: two_digits (t.tm_mon + 1) ++ '-'
    :: Nat.toDigits 10 (t.tm_year + 1900) ++ ' ' :: two_digits t.tm_hour
    ++ ':' :: two_digits t.tm_min ++ ':' :: two_digits t.tm_sec

/-- The function `FontSourceCodeGenerator::current_timestamp`; the local time `now`
that it reads from the system clock is an explicit argument. -/
def current_timestamp (now : tm) : String :=
  let s := ostringstream.new
  let s := s.put (put_time now)
  s.str

/-- The local time is a calendar time: the ranges of the fields of `struct tm`. -/
def tm.valid (t : tm) : Prop :=
  t.tm_sec ≤ 60 ∧ t.tm_min < 60 ∧ t.tm_hour < 24
    ∧ 1 ≤ t.tm_mday ∧ t.tm_mday ≤ 31 ∧ t.tm_mon < 12

instance (t : tm) : Decidable t.valid := by
  unfold tm.valid
  infer_instance

/-- The value of a sequence of decimal digit characters. -/
def decimal_value (cs : List Char) : Nat :=
  cs.foldl (fun acc c => 10 * acc + (c.toNat - 48)) 0

end FontSourceCodeGenerator

/-- The function `pixel_margins` of `fontsourcecodegenerator.cpp`. -/
def pixel_margins (line_margins : font.Margins) (glyph_size : font.Size) : font.Margins :=
  { top := size_mul line_margins.top glyph_size.width
    bottom := size_mul line_margins.bottom glyph_size.width }

namespace SourceCode

/-- The struct `Tab`. -/
structure Tab where
  deriving DecidableEq, Repr

/-- The struct `Space`: a run of `num_spaces` blanks. -/
structure Space where
  num_spaces : Nat
  deriving DecidableEq, Repr

/-- The type `Indentation`, a `std::variant<Tab,Space>`. -/
inductive Indentation where
  | tab (t : Tab)
  | space (s : Space)
  deriving DecidableEq, Repr

/-- The test `std::holds_alternative<Tab>`. -/
def Indentation.holds_Tab : Indentation → Bool
  | Indentation.tab _ => true
  | Indentation.space _ => false

/-- The test `std::holds_alternative<Space>`. -/
def Indentation.holds_Space : Indentation → Bool
  | Indentation.tab _ => false
  | Indentation.space _ => true

/-- The access `std::get<Space>`, which throws on a `Tab` (`none`). -/
def Indentation.get_Space : Indentation → Option Space
  | Indentation.tab _ => none
  | Indentation.space s => some s

/-- The function `operator==(const Indentation&, const Indentation&)` (`none`: an
access to the wrong alternative throws). -/
def Indentation.op_eq (lhs rhs : Indentation) : Option Bool :=
  if lhs.holds_Tab && rhs.holds_Tab then
    some true
  else if lhs.holds_Space && rhs.holds_Space then do
    let l ← lhs.get_Space
    let r ← rhs.get_Space
    pure (l.num_spaces == r.num_spaces)
  else
    some false

namespace Idiom

/-- The struct `Idiom::Begin` (the format tag `T` does not appear in its fields). -/
structure Begin where
  font_name : String
  font_size : font.Size
  timestamp : String
  deriving DecidableEq, Repr

end Idiom

end SourceCode

namespace FontSourceCodeGenerator

/-- Modelled from the spec: the first step of the generator, whose code is not
among the sources: emit `Begin` with the font name, the size of the face and
the timestamp captured at generation time. -/
def begin_event (now : tm) (font_name : String) (face : font.Face) : SourceCode.Idiom.Begin :=
  { font_name := font_name, font_size := face.sz_, timestamp := current_timestamp now }

end FontSourceCodeGenerator

/-! ### The model of the main window -/

/-- Modelled from the spec: the enumeration `InterfaceAction` is declared in
`mainwindowmodel.h`, which is not among the sources; these are the enumerators
that the two versions of `registerInputEvent` name. -/
inductive InterfaceAction where
  | ActionImportFont
  | ActionAddGlyph
  | ActionSave
  | ActionClose
  | ActionCopy
  | ActionPaste
  | ActionUndo
  | ActionRedo
  | ActionResetGlyph
  | ActionResetFont
  | ActionPrint
  | ActionExport
  | ActionTabCode
  deriving DecidableEq, Repr

/-- Modelled from the spec: the enumeration `UserAction` of `mainwindowmodel.h`,
with the enumerators that the two versions of `registerInputEvent` name. -/
inductive UserAction where
  | UserIdle
  | UserLoadedFace
  | UserLoadedGlyph
  | UserEditedGlyph
  deriving DecidableEq, Repr

/-- Modelled from the spec: the closed input-event union `InputEvent`, a
`std::variant<InterfaceAction, UserAction>`. -/
inductive InputEvent where
  | interface (action : InterfaceAction)
  | user (action : UserAction)
  deriving DecidableEq, Repr

/-- Modelled from the spec: the bitset of permitted actions, as the set of the
actions whose bit is set: `reset()` is the empty set, `set(a)` inserts `a`. -/
abbrev ActionsState := Finset InterfaceAction

/-- The signals a `MainWindowModel` emits from `registerInputEvent`. -/
inductive Signal where
  | uiStateChanged (state : ActionsState)
  deriving DecidableEq

/-- The part of a `MainWindowModel` that `registerInputEvent` reads and writes: the
member `uiState_`, and the signals emitted so far, oldest first. -/
structure MainWindowModel where
  uiState_ : ActionsState
  emitted : List Signal
  deriving DecidableEq

namespace app_src

open InterfaceAction UserAction in
/-- The local variable `state` of `MainWindowModel::registerInputEvent` in
`app/src/mainwindowmodel.cpp` when the branching on the event is done. -/
def computed_state (uiState_ : ActionsState) (e : InputEvent) : ActionsState :=
  let state := uiState_
  match e with
  | InputEvent.interface action =>
    match action with
    | ActionAddGlyph | ActionSave => state
    | _ => state
  | InputEvent.user action =>
    match action with
    | UserIdle => ∅
    | UserLoadedFace =>
      let state : ActionsState := ∅
      let state := insert ActionAddGlyph state
      let state := insert ActionSave state
      let state := insert ActionClose state
      let state := insert ActionPrint state
      let state := insert ActionExport state
      let state := insert ActionTabCode state
      state
    | UserLoadedGlyph => insert ActionCopy state
    | _ => state

/-- The method `MainWindowModel::registerInputEvent` of `app/src/mainwindowmodel.cpp`. -/
def registerInputEvent (self : MainWindowModel) (e : InputEvent) : MainWindowModel :=
  let state := computed_state self.uiState_ e
  if state ≠ self.uiState_ then
    { uiState_ := state, emitted := self.emitted ++ [Signal.uiStateChanged state] }
  else
    self

end app_src

namespace app

open InterfaceAction UserAction in
/-- The local variable `state` of `MainWindowModel::registerInputEvent` in
`app/mainwindowmodel.cpp` when the branching on the event is done. -/
def computed_state (uiState_ : ActionsState) (e : InputEvent) : ActionsState :=
  let state := uiState_
  match e with
  | InputEvent.interface action =>
    match action with
    | ActionImportFont | ActionAddGlyph | ActionSave => state
    | _ => state
  | InputEvent.user action =>
    match action with
    | UserIdle => insert ActionImportFont ∅
    | UserLoadedFace =>
      let state : ActionsState := ∅
      let state := insert ActionImportFont state
      let state := insert ActionAddGlyph state
      let state := insert ActionSave state
      let state := insert ActionPrint state
      let state := insert ActionExport state
      let state := insert ActionTabCode state
      state
    | UserLoadedGlyph => insert ActionCopy state
    | UserEditedGlyph => insert ActionResetFont (insert ActionResetGlyph state)

/-- The method `MainWindowModel::registerInputEvent` of `app/mainwindowmodel.cpp`. -/
def registerInputEvent (self : MainWindowModel) (e : InputEvent) : MainWindowModel :=
  let state := computed_state self.uiState_ e
  if state ≠ self.uiState_ then
    { uiState_ := state, emitted := self.emitted ++ [Signal.uiStateChanged state] }
  else
    self

end app

/-! ### Sample data -/

namespace font

/-- A 2x3 glyph whose only set pixel is the right pixel of the middle row. -/
def sample_glyph : Glyph :=
  { size_ := { width := 2, height := 3 }
    pixels_ := [false, false, false, true, false, false] }

/-- A 2x3 glyph whose set pixels are in the two lower rows. -/
def sample_glyph_low : Glyph :=
  { size_ := { width := 2, height := 3 }
    pixels_ := [false, false, true, false, false, true] }

/-- A face of two 2x3 glyphs. -/
def sample_face : Face :=
  Face.ofParts { width := 2, height := 3 } [sample_glyph, sample_glyph_low] {0, 1}

/-- A face of size 2x3 without glyphs. -/
def sample_face_empty : Face :=
  Face.ofParts { width := 2, height := 3 } [] ∅

/-- An 8-row glyph of width 2 with only row 3 set. -/
def sample_glyph_row3 : Glyph :=
  { size_ := { width := 2, height := 8 }
    pixels_ := [false, false, false, false, false, false, true, true,
                false, false, false, false, false, false, false, false] }

/-- A reader of two 2x2 glyphs: glyph `i` has column `i` set. -/
def sample_reader : FaceReader :=
  { font_size := { width := 2, height := 2 }
    num_glyphs := 2
    is_pixel_set := fun i p => decide (p.x = i) }

end font

namespace FontSourceCodeGenerator

/-- The local time 30-10-2026 14:23:07. -/
def sample_time : tm :=
  { tm_sec := 7, tm_min := 23, tm_hour := 14, tm_mday := 30, tm_mon := 9, tm_year := 126 }

/-- The local time one second later, 30-10-2026 14:23:08. -/
def sample_time_later : tm :=
  { tm_sec := 8, tm_min := 23, tm_hour := 14, tm_mday := 30, tm_mon := 9, tm_year := 126 }

end FontSourceCodeGenerator

/-! ## Auxiliary lemmas -/

/-- The `std::size_t` product is the exact product when that is representable. -/
theorem size_mul_of_lt (a b : Nat) (h : a * b < SIZE_MOD) : size_mul a b = a * b := by
  unfold size_mul
  exact Nat.mod_eq_of_lt h

theorem size_mul_le (a b : Nat) : size_mul a b ≤ a * b :=
  Nat.mod_le _ _

theorem find_distance_le (v : Bool) (l : List Bool) : find_distance v l ≤ l.length := by
  induction l with
  | nil => simp [find_distance]
  | cons p ps ih =>
    simp only [find_distance, List.length_cons]
    split <;> omega

theorem find_distance_all_off (l : List Bool) (h : ∀ p ∈ l, p = false) :
    find_distance true l = l.length := by
  induction l with
  | nil => simp [find_distance]
  | cons p ps ih =>
    have hp : p = false := h p (by simp)
    have := ih (fun q hq => h q (by simp [hq]))
    simp [find_distance, hp, this]

theorem lt_length_of_getElem? {l : List Bool} {i : Nat} {b : Bool} (h : l[i]? = some b) :
    i < l.length := by
  by_contra hc
  rw [List.getElem?_eq_none (by omega)] at h
  simp at h

namespace font

theorem find_distance_of_first (l : List Bool) (i : Nat) (h : is_first_set_pixel l i) :
    find_distance true l = i := by
  induction l generalizing i with
  | nil => simp [is_first_set_pixel] at h
  | cons p ps ih =>
    obtain ⟨h1, h2⟩ := h
    cases i with
    | zero =>
      simp at h1
      simp [find_distance, h1]
    | succ k =>
      have h0 := h2 0 (Nat.succ_pos k)
      simp at h0
      simp only [find_distance, h0]
      simp
      apply ih
      refine ⟨by simpa using h1, ?_⟩
      intro j hj
      have := h2 (j + 1) (by omega)
      simpa using this

theorem first_of_find_distance (l : List Bool) (h : true ∈ l) :
    is_first_set_pixel l (find_distance true l) := by
  induction l with
  | nil => simp at h
  | cons p ps ih =>
    cases p with
    | true => simp [find_distance, is_first_set_pixel]
    | false =>
      have h' : true ∈ ps := by simpa using h
      obtain ⟨h1, h2⟩ := ih h'
      refine ⟨by simpa [find_distance] using h1, ?_⟩
      intro j hj
      simp [find_distance] at hj
      cases j with
      | zero => simp
      | succ k => simpa using h2 k (by omega)

theorem first_reverse_of_last (l : List Bool) (i : Nat) (h : is_last_set_pixel l i) :
    is_first_set_pixel l.reverse (l.length - 1 - i) := by
  obtain ⟨h1, h2⟩ := h
  have hi : i < l.length := lt_length_of_getElem? h1
  constructor
  · rw [List.getElem?_reverse (by omega)]
    have : l.length - 1 - (l.length - 1 - i) = i := by omega
    rw [this]; exact h1
  · intro j hj
    rw [List.getElem?_reverse (by omega)]
    exact h2 _ (by omega) (by omega)

theorem last_of_reverse_first (l : List Bool) (k : Nat) (h : is_first_set_pixel l.reverse k) :
    is_last_set_pixel l (l.length - 1 - k) := by
  obtain ⟨h1, h2⟩ := h
  have hk : k < l.length := by
    have := lt_length_of_getElem? h1
    simpa using this
  constructor
  · rw [List.getElem?_reverse (by omega)] at h1
    exact h1
  · intro j hjl hj
    have := h2 (l.length - 1 - j) (by omega)
    rw [List.getElem?_reverse (by omega)] at this
    have e : l.length - 1 - (l.length - 1 - j) = j := by omega
    rw [e] at this; exact this

theorem exists_last_set_pixel (l : List Bool) (h : true ∈ l) : ∃ i, is_last_set_pixel l i := by
  have h' : true ∈ l.reverse := by simpa using h
  exact ⟨_, last_of_reverse_first l _ (first_of_find_distance _ h')⟩

theorem top_margin_eq (g : Glyph) (hw : 1 ≤ g.size_.width) :
    g.top_margin = some (find_distance true g.pixels_ / g.size_.width) := by
  have : g.size_.width ≠ 0 := by omega
  simp [Glyph.top_margin, this]

theorem bottom_margin_eq (g : Glyph) (hw : 1 ≤ g.size_.width) :
    g.bottom_margin = some (find_distance true g.pixels_.reverse / g.size_.width) := by
  have : g.size_.width ≠ 0 := by omega
  simp [Glyph.bottom_margin, this]

/-- A glyph that satisfies the class invariant has a top margin of at most its height. -/
theorem valid_top_margin_le (g : Glyph) (hv : g.valid) (t : Nat) (ht : g.top_margin = some t) :
    t ≤ g.size_.height := by
  unfold Glyph.top_margin at ht
  simp only at ht
  split at ht
  · cases ht
  · rename_i hw
    cases ht
    have h1 := find_distance_le true g.pixels_
    rw [hv] at h1
    calc find_distance true g.pixels_ / g.size_.width
        ≤ (g.size_.width * g.size_.height) / g.size_.width :=
          Nat.div_le_div_right (le_trans h1 (size_mul_le _ _))
      _ = g.size_.height := Nat.mul_div_cancel_left _ (by omega)

/-- A glyph that satisfies the class invariant has a bottom margin of at most its height. -/
theorem valid_bottom_margin_le (g : Glyph) (hv : g.valid) (b : Nat)
    (hb : g.bottom_margin = some b) : b ≤ g.size_.height := by
  unfold Glyph.bottom_margin at hb
  simp only at hb
  split at hb
  · cases hb
  · rename_i hw
    cases hb
    have h1 := find_distance_le true g.pixels_.reverse
    rw [List.length_reverse, hv] at h1
    calc find_distance true g.pixels_.reverse / g.size_.width
        ≤ (g.size_.width * g.size_.height) / g.size_.width :=
          Nat.div_le_div_right (le_trans h1 (size_mul_le _ _))
      _ = g.size_.height := Nat.mul_div_cancel_left _ (by omega)

theorem margins_step_eq (m : Margins) (g : Glyph) (hw : 1 ≤ g.size_.width) :
    ∃ t b, g.top_margin = some t ∧ g.bottom_margin = some b
      ∧ Face.margins_step m g = some { top := min m.top t, bottom := min m.bottom b } := by
  refine ⟨_, _, top_margin_eq g hw, bottom_margin_eq g hw, ?_⟩
  simp [Face.margins_step, top_margin_eq g hw, bottom_margin_eq g hw]

/-- Invariant of the accumulation loop of `calculate_margins`: each accumulator is
at most its initial value and at most the margin of every glyph folded in, and
is one of those values. -/
theorem foldlM_margins_step (gs : List Glyph) (hw : ∀ g ∈ gs, 1 ≤ g.size_.width)
    (m0 : Margins) :
    ∃ m, gs.foldlM Face.margins_step m0 = some m
      ∧ m.top ≤ m0.top ∧ m.bottom ≤ m0.bottom
      ∧ (∀ g ∈ gs, ∀ t, g.top_margin = some t → m.top ≤ t)
      ∧ (∀ g ∈ gs, ∀ b, g.bottom_margin = some b → m.bottom ≤ b)
      ∧ (m.top = m0.top ∨ ∃ g ∈ gs, g.top_margin = some m.top)
      ∧ (m.bottom = m0.bottom ∨ ∃ g ∈ gs, g.bottom_margin = some m.bottom) := by
  induction gs generalizing m0 with
  | nil => exact ⟨m0, rfl, le_refl _, le_refl _, by simp, by simp, Or.inl rfl, Or.inl rfl⟩
  | cons g gs ih =>
    obtain ⟨t, b, ht, hb, hstep⟩ := margins_step_eq m0 g (hw g (by simp))
    obtain ⟨m, hm, h1, h2, h3, h4, h5, h6⟩ :=
      ih (fun g' hg' => hw g' (by simp [hg'])) { top := min m0.top t, bottom := min m0.bottom b }
    simp only at h1 h2 h5 h6
    refine ⟨m, ?_, ?_, ?_, ?_, ?_, ?_, ?_⟩
    · simp [List.foldlM, hstep, hm]
    · exact le_trans h1 (min_le_left _ _)
    · exact le_trans h2 (min_le_left _ _)
    · intro g' hg' t' ht'
      rcases List.mem_cons.mp hg' with rfl | hmem
      · rw [ht] at ht'
        cases ht'
        exact le_trans h1 (min_le_right _ _)
      · exact h3 g' hmem t' ht'
    · intro g' hg' b' hb'
      rcases List.mem_cons.mp hg' with rfl | hmem
      · rw [hb] at hb'
        cases hb'
        exact le_trans h2 (min_le_right _ _)
      · exact h4 g' hmem b' hb'
    · rcases h5 with h5 | ⟨g', hg', e⟩
      · rcases min_choice m0.top t with hc | hc
        · left; rw [h5, hc]
        · right; exact ⟨g, by simp, by rw [h5, hc]; exact ht⟩
      · right; exact ⟨g', by simp [hg'], e⟩
    · rcases h6 with h6 | ⟨g', hg', e⟩
      · rcases min_choice m0.bottom b with hc | hc
        · left; rw [h6, hc]
        · right; exact ⟨g, by simp, by rw [h6, hc]; exact hb⟩
      · right; exact ⟨g', by simp [hg'], e⟩

theorem foldl_push_back {α β : Type} (f : α → β) (xs : List α) (acc : List β) :
    xs.foldl (fun ps x => ps ++ [f x]) acc = acc ++ xs.map f := by
  induction xs generalizing acc with
  | nil => simp
  | cons x xs ih => simp [ih]

/-- The pixel loops of `read_glyphs` produce the rows one after the other. -/
theorem read_pixels_eq (data : FaceReader) (i : Nat) :
    Face.read_pixels data i =
      ((List.range data.font_size.height).map (fun y =>
        (List.range data.font_size.width).map
          (fun x => data.is_pixel_set i { x := x, y := y }))).flatten := by
  unfold Face.read_pixels
  generalize List.range data.font_size.height = ys
  suffices h : ∀ acc : List Bool,
      ys.foldl (fun pixels y => (List.range data.font_size.width).foldl
        (fun pixels x => pixels ++ [data.is_pixel_set i { x := x, y := y }]) pixels) acc
      = acc ++ (ys.map (fun y => (List.range data.font_size.width).map
          (fun x => data.is_pixel_set i { x := x, y := y }))).flatten by
    simpa using h []
  induction ys with
  | nil => simp
  | cons y ys ih =>
    intro acc
    simp only [List.foldl_cons, List.map_cons, List.flatten_cons]
    rw [ih, foldl_push_back, List.append_assoc]

theorem rows_flatten_length {α : Type} (f : Nat → Nat → α) (w h : Nat) :
    (((List.range h).map (fun y => (List.range w).map (fun x => f y x))).flatten).length
      = w * h := by
  induction h with
  | zero => simp
  | succ n ih =>
    rw [List.range_succ, List.map_append, List.flatten_append, List.length_append, ih]
    simp [Nat.mul_succ]

theorem rows_flatten_getElem? {α : Type} (f : Nat → Nat → α) (w h x y : Nat)
    (hx : x < w) (hy : y < h) :
    (((List.range h).map (fun y => (List.range w).map (fun x => f y x))).flatten)[y * w + x]?
      = some (f y x) := by
  induction h with
  | zero => omega
  | succ n ih =>
    rw [List.range_succ, List.map_append, List.flatten_append]
    by_cases hyn : y < n
    · rw [List.getElem?_append_left]
      · exact ih hyn
      · rw [rows_flatten_length]
        have : (y + 1) * w ≤ n * w := Nat.mul_le_mul_right _ hyn
        rw [Nat.add_mul] at this
        rw [Nat.mul_comm w n]
        omega
    · have hyn' : y = n := by omega
      subst hyn'
      rw [List.getElem?_append_right]
      · rw [rows_flatten_length, Nat.mul_comm w y]
        simp [hx]
      · rw [rows_flatten_length, Nat.mul_comm w y]
        omega

theorem read_pixels_length (data : FaceReader) (i : Nat) :
    (Face.read_pixels data i).length = data.font_size.width * data.font_size.height := by
  rw [read_pixels_eq]
  exact rows_flatten_length (fun y x => data.is_pixel_set i { x := x, y := y }) _ _

theorem read_pixels_getElem? (data : FaceReader) (i x y : Nat)
    (hx : x < data.font_size.width) (hy : y < data.font_size.height) :
    (Face.read_pixels data i)[y * data.font_size.width + x]?
      = some (data.is_pixel_set i { x := x, y := y }) := by
  rw [read_pixels_eq]
  exact rows_flatten_getElem? (fun y x => data.is_pixel_set i { x := x, y := y }) _ _ x y hx hy

theorem ofPixels_read_pixels (data : FaceReader)
    (hrep : data.font_size.width * data.font_size.height < SIZE_MOD) (i : Nat) :
    Glyph.ofPixels data.font_size (Face.read_pixels data i)
      = Except.ok { size_ := data.font_size, pixels_ := Face.read_pixels data i } := by
  simp [Glyph.ofPixels, read_pixels_length, size_mul_of_lt _ _ hrep]

theorem read_glyphs_eq (data : FaceReader)
    (hrep : data.font_size.width * data.font_size.height < SIZE_MOD) :
    Face.read_glyphs data = Except.ok ((List.range data.num_glyphs).map
      (fun i => { size_ := data.font_size, pixels_ := Face.read_pixels data i })) := by
  unfold Face.read_glyphs
  generalize List.range data.num_glyphs = is
  suffices h : ∀ acc : List Glyph,
      is.foldlM (fun glyphs i => do
          let g ← Glyph.ofPixels data.font_size (Face.read_pixels data i)
          pure (glyphs ++ [g])) acc
      = Except.ok (acc ++ is.map
          (fun i => { size_ := data.font_size, pixels_ := Face.read_pixels data i })) by
    simpa using h []
  induction is with
  | nil => intro acc; simp [pure, Except.pure]
  | cons i is ih =>
    intro acc
    rw [List.foldlM_cons, ofPixels_read_pixels data hrep]
    simp only [List.map_cons]
    have := ih (acc ++ [{ size_ := data.font_size, pixels_ := Face.read_pixels data i }])
    simp only [List.append_assoc, List.singleton_append] at this
    exact this

theorem foldl_insert_range (n : Nat) (s : Finset Nat) :
    (List.range n).foldl (fun ids i => insert i ids) s = s ∪ Finset.range n := by
  induction n with
  | zero => simp
  | succ k ih =>
    rw [List.range_succ, List.foldl_append, ih]
    ext a
    simp only [List.foldl_cons, List.foldl_nil, Finset.mem_insert, Finset.mem_union,
      Finset.mem_range]
    have : a < k + 1 ↔ a = k ∨ a < k := by omega
    rw [this]
    tauto

/-- The face built from a reader whose glyph pixel count is representable. -/
theorem ofReader_eq (data : FaceReader)
    (hrep : data.font_size.width * data.font_size.height < SIZE_MOD) :
    Face.ofReader data = Except.ok
      { sz_ := data.font_size
        glyphs_ := (List.range data.num_glyphs).map
          (fun i => { size_ := data.font_size, pixels_ := Face.read_pixels data i })
        exported_glyph_ids_ := Finset.range data.num_glyphs } := by
  unfold Face.ofReader
  rw [read_glyphs_eq data hrep]
  simp [Face.ofParts, foldl_insert_range, bind, Except.bind, pure, Except.pure]

theorem read_glyphs_length (data : FaceReader) (gs : List Glyph)
    (h : Face.read_glyphs data = Except.ok gs) : gs.length = data.num_glyphs := by
  unfold Face.read_glyphs at h
  suffices key : ∀ (is : List Nat) (acc gs : List Glyph),
      is.foldlM (fun glyphs i => do
          let g ← Glyph.ofPixels data.font_size (Face.read_pixels data i)
          pure (glyphs ++ [g])) acc = Except.ok gs →
      gs.length = acc.length + is.length by
    have := key _ _ _ h
    simpa using this
  intro is
  induction is with
  | nil =>
    intro acc gs h
    simp only [List.foldlM_nil, pure, Except.pure] at h
    cases h
    simp
  | cons i is ih =>
    intro acc gs h
    rw [List.foldlM_cons] at h
    cases hg : Glyph.ofPixels data.font_size (Face.read_pixels data i) with
    | error e =>
      rw [hg] at h
      simp [bind, Except.bind] at h
    | ok g =>
      rw [hg] at h
      simp only [bind, Except.bind, pure, Except.pure] at h
      have := ih _ _ h
      simp only [List.length_append, List.length_cons, List.length_nil] at this
      simp only [List.length_cons]
      omega

/-- Whenever the construction from a reader succeeds, the face has the size of the
reader, one glyph per index and exactly the glyph indices exported. -/
theorem ofReader_ok (data : FaceReader) (f : Face) (h : Face.ofReader data = Except.ok f) :
    f.sz_ = data.font_size ∧ f.glyphs_.length = data.num_glyphs
      ∧ f.exported_glyph_ids_ = Finset.range data.num_glyphs := by
  unfold Face.ofReader at h
  cases hg : Face.read_glyphs data with
  | error e =>
    rw [hg] at h
    simp [bind, Except.bind] at h
  | ok gs =>
    rw [hg] at h
    simp only [bind, Except.bind, pure, Except.pure, Face.ofParts, foldl_insert_range,
      Except.ok.injEq] at h
    subst h
    have hl := read_glyphs_length data gs hg
    simp [hl]

end font

/-! ## Glyph construction -/

namespace font

/-- C1: constructing a glyph from a size and a pixel sequence throws the
size-mismatch error exactly when the sequence length differs from
`width * height` (the `std::size_t` product the constructor computes, which is
the exact product whenever that is representable); otherwise the construction
succeeds and the glyph holds the given size and the given pixels, unchanged and
in the same order. -/
theorem Glyph_ofPixels_size_check (sz : Size) (pixels : List Bool) :
    (Glyph.ofPixels sz pixels = Except.error size_mismatch
        ↔ pixels.length ≠ size_mul sz.width sz.height)
    ∧ ((∃ e, Glyph.ofPixels sz pixels = Except.error e)
        ↔ pixels.length ≠ size_mul sz.width sz.height)
    ∧ (pixels.length = size_mul sz.width sz.height →
        Glyph.ofPixels sz pixels = Except.ok { size_ := sz, pixels_ := pixels })
    ∧ (sz.width * sz.height < SIZE_MOD →
        (Glyph.ofPixels sz pixels = Except.error size_mismatch
          ↔ pixels.length ≠ sz.width * sz.height)) := by
  by_cases h : pixels.length = size_mul sz.width sz.height
  · refine ⟨?_, ?_, ?_, ?_⟩
    · simp [Glyph.ofPixels, h]
    · simp [Glyph.ofPixels, h]
    · intro _; simp [Glyph.ofPixels, h]
    · intro hlt
      rw [size_mul_of_lt _ _ hlt] at h
      simp [Glyph.ofPixels, size_mul_of_lt _ _ hlt, h]
  · refine ⟨?_, ?_, ?_, ?_⟩
    · simp [Glyph.ofPixels, h]
    · simp [Glyph.ofPixels, h]
    · intro h'; exact absurd h' h
    · intro hlt
      rw [size_mul_of_lt _ _ hlt] at h
      simp [Glyph.ofPixels, size_mul_of_lt _ _ hlt, h]

/-- C1 at a 2x2 size: four pixels are accepted and kept as given, three pixels are
rejected with the size-mismatch error. -/
theorem Glyph_ofPixels_size_check_witness :
    Glyph.ofPixels ⟨2, 2⟩ [true, false, false, true]
        = Except.ok { size_ := ⟨2, 2⟩, pixels_ := [true, false, false, true] }
    ∧ Glyph.ofPixels ⟨2, 2⟩ [true, false, false] = Except.error size_mismatch :=
  ⟨(Glyph_ofPixels_size_check ⟨2, 2⟩ [true, false, false, true]).2.2.1 (by decide),
   (Glyph_ofPixels_size_check ⟨2, 2⟩ [true, false, false]).1.mpr (by decide)⟩

/-! ## Glyph margins -/

/-- C2: for a glyph of width at least 1 whose pixel sequence has length
`width * height` and contains a set pixel, there is a first set pixel, and
`top_margin()` is its row index `y` (its index in the row-major sequence being
`y * width + x` with `x < width`); `y` is below the height, every row above row
`y` is fully empty and row `y` contains a set pixel, so `top_margin()` is the
number of leading fully-empty rows. -/
theorem Glyph_top_margin_first_set_row (g : Glyph) (hw : 1 ≤ g.size_.width)
    (hlen : g.pixels_.length = g.size_.width * g.size_.height) (hset : true ∈ g.pixels_) :
    (∃ i, is_first_set_pixel g.pixels_ i) ∧
    ∀ i, is_first_set_pixel g.pixels_ i →
      ∃ y x, x < g.size_.width ∧ i = y * g.size_.width + x
        ∧ g.top_margin = some y
        ∧ y < g.size_.height
        ∧ (∀ y', y' < y → g.row_empty y')
        ∧ g.row_has_set_pixel y := by
  refine ⟨⟨_, first_of_find_distance _ hset⟩, ?_⟩
  intro i hi
  have hfd := find_distance_of_first _ _ hi
  obtain ⟨h1, h2⟩ := hi
  have hil := lt_length_of_getElem? h1
  have hdm : i / g.size_.width * g.size_.width + i % g.size_.width = i := by
    rw [Nat.mul_comm]; exact Nat.div_add_mod i g.size_.width
  have hmod : i % g.size_.width < g.size_.width := Nat.mod_lt _ (by omega)
  refine ⟨i / g.size_.width, i % g.size_.width, hmod, hdm.symm,
    by rw [top_margin_eq g hw, hfd], ?_, ?_, ?_⟩
  · apply Nat.div_lt_of_lt_mul
    omega
  · intro y hy x hx
    apply h2
    have h3 : (y + 1) * g.size_.width ≤ i := (Nat.le_div_iff_mul_le (by omega)).mp hy
    rw [Nat.add_mul] at h3
    omega
  · refine ⟨i % g.size_.width, hmod, ?_⟩
    rw [hdm]; exact h1

/-- C2 at the sample glyph: its first set pixel is at index 3, the right pixel of
row 1. -/
theorem Glyph_top_margin_first_set_row_witness :
    (1 ≤ sample_glyph.size_.width
      ∧ sample_glyph.pixels_.length = sample_glyph.size_.width * sample_glyph.size_.height
      ∧ true ∈ sample_glyph.pixels_
      ∧ is_first_set_pixel sample_glyph.pixels_ 3)
    ∧ ∃ y x, x < sample_glyph.size_.width ∧ 3 = y * sample_glyph.size_.width + x
        ∧ sample_glyph.top_margin = some y
        ∧ y < sample_glyph.size_.height
        ∧ (∀ y', y' < y → sample_glyph.row_empty y')
        ∧ sample_glyph.row_has_set_pixel y :=
  ⟨by decide,
   (Glyph_top_margin_first_set_row sample_glyph (by decide) (by decide) (by decide)).2 3
     (by decide)⟩

/-- C3: for a glyph of width at least 1 whose pixel sequence has length
`width * height` and contains a set pixel, there is a last set pixel, and
`bottom_margin()` is `height - 1 - y` for its row index `y` (its index in the
row-major sequence being `y * width + x` with `x < width`); it is below the
height, each of the last `bottom_margin()` rows is fully empty and the row just
above them contains a set pixel, so `bottom_margin()` is the number of trailing
fully-empty rows. -/
theorem Glyph_bottom_margin_last_set_row (g : Glyph) (hw : 1 ≤ g.size_.width)
    (hlen : g.pixels_.length = g.size_.width * g.size_.height) (hset : true ∈ g.pixels_) :
    (∃ i, is_last_set_pixel g.pixels_ i) ∧
    ∀ i, is_last_set_pixel g.pixels_ i →
      ∃ y x b, x < g.size_.width ∧ i = y * g.size_.width + x
        ∧ g.bottom_margin = some b
        ∧ b = g.size_.height - 1 - y
        ∧ b < g.size_.height
        ∧ (∀ y', g.size_.height - b ≤ y' → y' < g.size_.height → g.row_empty y')
        ∧ g.row_has_set_pixel (g.size_.height - 1 - b) := by
  refine ⟨exists_last_set_pixel _ hset, ?_⟩
  intro i hi
  have hfd := find_distance_of_first _ _ (first_reverse_of_last _ _ hi)
  obtain ⟨h1, h2⟩ := hi
  have hil := lt_length_of_getElem? h1
  rw [bottom_margin_eq g hw, hfd]
  unfold Glyph.row_empty Glyph.row_has_set_pixel
  generalize g.size_.width = w at *
  generalize g.size_.height = ht at *
  generalize g.pixels_ = px at *
  have hyh : i / w < ht := by
    apply Nat.div_lt_of_lt_mul
    omega
  have hdm : w * (i / w) + i % w = i := Nat.div_add_mod i w
  have hmod : i % w < w := Nat.mod_lt _ (by omega)
  generalize i / w = q at *
  generalize i % w = r at *
  obtain ⟨k, hk⟩ : ∃ k, ht = q + 1 + k := ⟨ht - 1 - q, by omega⟩
  have hwh : w * ht = w * q + w + w * k := by
    rw [hk, Nat.mul_add, Nat.mul_add, Nat.mul_one]
  have hval : px.length - 1 - i = w * k + (w - 1 - r) := by omega
  have hdiv : (px.length - 1 - i) / w = k := by
    rw [hval, Nat.mul_add_div (by omega), Nat.div_eq_of_lt (by omega)]
    rfl
  have hqw : q * w + r = i := by rw [Nat.mul_comm]; exact hdm
  refine ⟨q, r, k, hmod, hqw.symm, by rw [hdiv], by omega, by omega, ?_, ?_⟩
  · intro y hy1 hy2 x hx
    obtain ⟨d, hd⟩ : ∃ d, y = q + 1 + d := ⟨y - (q + 1), by omega⟩
    obtain ⟨e, he⟩ : ∃ e, ht = y + 1 + e := ⟨ht - 1 - y, by omega⟩
    have e1 : y * w = w * q + w + w * d := by
      rw [hd, Nat.add_mul, Nat.add_mul, Nat.one_mul, Nat.mul_comm q w, Nat.mul_comm d w]
    have e2 : w * ht = y * w + w + w * e := by
      rw [he, Nat.mul_add, Nat.mul_add, Nat.mul_one, Nat.mul_comm w y]
    apply h2 <;> omega
  · refine ⟨r, hmod, ?_⟩
    have : ht - 1 - k = q := by omega
    rw [this, hqw]; exact h1

/-- C3 at the sample glyph: its last set pixel is at index 3, in row 1 of 3, so one
row is left below it. -/
theorem Glyph_bottom_margin_last_set_row_witness :
    (1 ≤ sample_glyph.size_.width
      ∧ sample_glyph.pixels_.length = sample_glyph.size_.width * sample_glyph.size_.height
      ∧ true ∈ sample_glyph.pixels_
      ∧ is_last_set_pixel sample_glyph.pixels_ 3)
    ∧ ∃ y x b, x < sample_glyph.size_.width ∧ 3 = y * sample_glyph.size_.width + x
        ∧ sample_glyph.bottom_margin = some b
        ∧ b = sample_glyph.size_.height - 1 - y
        ∧ b < sample_glyph.size_.height
        ∧ (∀ y', sample_glyph.size_.height - b ≤ y' → y' < sample_glyph.size_.height →
            sample_glyph.row_empty y')
        ∧ sample_glyph.row_has_set_pixel (sample_glyph.size_.height - 1 - b) :=
  ⟨by decide,
   (Glyph_bottom_margin_last_set_row sample_glyph (by decide) (by decide) (by decide)).2 3
     (by decide)⟩

/-- C4: a glyph of width at least 1 and height `H` whose `width * H` pixels are all
off has `top_margin() == H` and `bottom_margin() == H`; in particular so has the
glyph built by the empty constructor `Glyph(size)`, for every size of width at
least 1 whose pixel count `width * H` is representable as a `std::size_t`. -/
theorem Glyph_all_off_margins :
    (∀ g : Glyph, 1 ≤ g.size_.width →
      g.pixels_.length = g.size_.width * g.size_.height →
      (∀ p ∈ g.pixels_, p = false) →
      g.top_margin = some g.size_.height ∧ g.bottom_margin = some g.size_.height)
    ∧ (∀ sz : Size, 1 ≤ sz.width → sz.width * sz.height < SIZE_MOD →
      (∀ p ∈ (Glyph.ofSize sz).pixels_, p = false)
      ∧ (Glyph.ofSize sz).top_margin = some sz.height
      ∧ (Glyph.ofSize sz).bottom_margin = some sz.height) := by
  have main : ∀ g : Glyph, 1 ≤ g.size_.width →
      g.pixels_.length = g.size_.width * g.size_.height →
      (∀ p ∈ g.pixels_, p = false) →
      g.top_margin = some g.size_.height ∧ g.bottom_margin = some g.size_.height := by
    intro g hw hlen hoff
    have hoff' : ∀ p ∈ g.pixels_.reverse, p = false := fun p hp => hoff p (by simpa using hp)
    rw [top_margin_eq g hw, bottom_margin_eq g hw, find_distance_all_off _ hoff,
      find_distance_all_off _ hoff', List.length_reverse, hlen,
      Nat.mul_div_cancel_left _ (by omega)]
    exact ⟨rfl, rfl⟩
  refine ⟨main, ?_⟩
  intro sz hw hrep
  have hoff : ∀ p ∈ (Glyph.ofSize sz).pixels_, p = false := by
    intro p hp
    simp only [Glyph.ofSize] at hp
    exact (List.mem_replicate.mp hp).2
  have hlen : (Glyph.ofSize sz).pixels_.length
      = (Glyph.ofSize sz).size_.width * (Glyph.ofSize sz).size_.height := by
    simp [Glyph.ofSize, size_mul_of_lt _ _ hrep]
  exact ⟨hoff, main (Glyph.ofSize sz) hw hlen hoff⟩

/-- C4 at an explicit all-off 2x3 glyph and at the empty 3x4 glyph. -/
theorem Glyph_all_off_margins_witness :
    (Glyph.mk ⟨2, 3⟩ [false, false, false, false, false, false]).top_margin = some 3
    ∧ (Glyph.mk ⟨2, 3⟩ [false, false, false, false, false, false]).bottom_margin = some 3
    ∧ (Glyph.ofSize ⟨3, 4⟩).top_margin = some 4
    ∧ (Glyph.ofSize ⟨3, 4⟩).bottom_margin = some 4 :=
  ⟨(Glyph_all_off_margins.1 (Glyph.mk ⟨2, 3⟩ [false, false, false, false, false, false])
      (by decide) (by decide) (by decide)).1,
   (Glyph_all_off_margins.1 (Glyph.mk ⟨2, 3⟩ [false, false, false, false, false, false])
      (by decide) (by decide) (by decide)).2,
   (Glyph_all_off_margins.2 ⟨3, 4⟩ (by decide) (by decide)).2.1,
   (Glyph_all_off_margins.2 ⟨3, 4⟩ (by decide) (by decide)).2.2⟩

/-! ## Face margins -/

/-- C5: for a face whose glyphs have width at least 1, `calculate_margins()`
returns `{top, bottom}` where `top` is the least of the face height and the
`top_margin()` of every glyph, and `bottom` the least of the face height and the
`bottom_margin()` of every glyph; for a face with no glyphs that is
`{height, height}`; for a non-empty face whose glyphs all have the size of the
face (and the pixel count of the class invariant) it is the pair of the least
`top_margin()` and the least `bottom_margin()` over the glyphs. -/
theorem Face_calculate_margins_min (f : Face) (hw : ∀ g ∈ f.glyphs_, 1 ≤ g.size_.width) :
    ∃ m, f.calculate_margins = some m
      ∧ IsLeast {n | n = f.sz_.height ∨ ∃ g ∈ f.glyphs_, g.top_margin = some n} m.top
      ∧ IsLeast {n | n = f.sz_.height ∨ ∃ g ∈ f.glyphs_, g.bottom_margin = some n} m.bottom
      ∧ (f.glyphs_ = [] → m = { top := f.sz_.height, bottom := f.sz_.height })
      ∧ (f.glyphs_ ≠ [] → (∀ g ∈ f.glyphs_, g.size_ = f.sz_ ∧ g.valid) →
          IsLeast {n | ∃ g ∈ f.glyphs_, g.top_margin = some n} m.top
          ∧ IsLeast {n | ∃ g ∈ f.glyphs_, g.bottom_margin = some n} m.bottom) := by
  obtain ⟨m, hm, h1, h2, h3, h4, h5, h6⟩ :=
    foldlM_margins_step f.glyphs_ hw { top := f.sz_.height, bottom := f.sz_.height }
  simp only at h1 h2 h5 h6
  refine ⟨m, hm, ⟨?_, ?_⟩, ⟨?_, ?_⟩, ?_, ?_⟩
  · rcases h5 with h5 | h5
    · exact Or.inl h5
    · exact Or.inr h5
  · rintro n (rfl | ⟨g, hg, e⟩)
    · exact h1
    · exact h3 g hg n e
  · rcases h6 with h6 | h6
    · exact Or.inl h6
    · exact Or.inr h6
  · rintro n (rfl | ⟨g, hg, e⟩)
    · exact h2
    · exact h4 g hg n e
  · intro hnil
    rw [hnil] at hm
    simp [List.foldlM] at hm
    exact hm.symm
  · intro hne hsz
    obtain ⟨g0, hg0⟩ := List.exists_mem_of_ne_nil _ hne
    obtain ⟨t0, b0, ht0, hb0, -⟩ := margins_step_eq m g0 (hw g0 hg0)
    have hsz0 := hsz g0 hg0
    refine ⟨⟨?_, ?_⟩, ⟨?_, ?_⟩⟩
    · rcases h5 with h5 | h5
      · refine ⟨g0, hg0, ?_⟩
        have h7 := h3 g0 hg0 t0 ht0
        have h8 := valid_top_margin_le g0 hsz0.2 t0 ht0
        rw [hsz0.1] at h8
        have : m.top = t0 := by omega
        rw [this]; exact ht0
      · exact h5
    · rintro n ⟨g, hg, e⟩
      exact h3 g hg n e
    · rcases h6 with h6 | h6
      · refine ⟨g0, hg0, ?_⟩
        have h7 := h4 g0 hg0 b0 hb0
        have h8 := valid_bottom_margin_le g0 hsz0.2 b0 hb0
        rw [hsz0.1] at h8
        have : m.bottom = b0 := by omega
        rw [this]; exact hb0
      · exact h6
    · rintro n ⟨g, hg, e⟩
      exact h4 g hg n e

/-- C5 at the sample face of two 2x3 glyphs, all of the size of the face, and at
the face without glyphs. -/
theorem Face_calculate_margins_min_witness :
    ((∀ g ∈ sample_face.glyphs_, 1 ≤ g.size_.width)
      ∧ sample_face.glyphs_ ≠ []
      ∧ (∀ g ∈ sample_face.glyphs_, g.size_ = sample_face.sz_ ∧ g.valid))
    ∧ (∃ m, sample_face.calculate_margins = some m
      ∧ IsLeast {n | n = sample_face.sz_.height
          ∨ ∃ g ∈ sample_face.glyphs_, g.top_margin = some n} m.top
      ∧ IsLeast {n | n = sample_face.sz_.height
          ∨ ∃ g ∈ sample_face.glyphs_, g.bottom_margin = some n} m.bottom
      ∧ IsLeast {n | ∃ g ∈ sample_face.glyphs_, g.top_margin = some n} m.top
      ∧ IsLeast {n | ∃ g ∈ sample_face.glyphs_, g.bottom_margin = some n} m.bottom)
    ∧ (∃ m, sample_face_empty.calculate_margins = some m
      ∧ m = { top := sample_face_empty.sz_.height, bottom := sample_face_empty.sz_.height }) :=
  ⟨by decide,
   (Face_calculate_margins_min sample_face (by decide)).elim
     (fun m h => ⟨m, h.1, h.2.1, h.2.2.1,
       (h.2.2.2.2 (by decide) (by decide)).1, (h.2.2.2.2 (by decide) (by decide)).2⟩),
   (Face_calculate_margins_min sample_face_empty (by decide)).elim
     (fun m h => ⟨m, h.1, h.2.2.2.1 (by decide)⟩)⟩

/-- C6: for a face whose glyphs have width at least 1 and every glyph `g` in it
(so the face is not empty), the result `{top, bottom}` of `calculate_margins()`
satisfies `top <= g.top_margin()` and `bottom <= g.bottom_margin()`. -/
theorem Face_calculate_margins_le (f : Face) (hw : ∀ g ∈ f.glyphs_, 1 ≤ g.size_.width)
    (g : Glyph) (hg : g ∈ f.glyphs_) :
    ∃ m t b, f.calculate_margins = some m ∧ g.top_margin = some t ∧ g.bottom_margin = some b
      ∧ m.top ≤ t ∧ m.bottom ≤ b := by
  obtain ⟨m, hm, -, -, h3, h4, -, -⟩ :=
    foldlM_margins_step f.glyphs_ hw { top := f.sz_.height, bottom := f.sz_.height }
  obtain ⟨t, b, ht, hb, -⟩ := margins_step_eq m g (hw g hg)
  exact ⟨m, t, b, hm, ht, hb, h3 g hg t ht, h4 g hg b hb⟩

/-- C6 at the sample face and its first glyph. -/
theorem Face_calculate_margins_le_witness :
    ((∀ g ∈ sample_face.glyphs_, 1 ≤ g.size_.width) ∧ sample_glyph ∈ sample_face.glyphs_)
    ∧ ∃ m t b, sample_face.calculate_margins = some m ∧ sample_glyph.top_margin = some t
        ∧ sample_glyph.bottom_margin = some b ∧ m.top ≤ t ∧ m.bottom ≤ b :=
  ⟨by decide, Face_calculate_margins_le sample_face (by decide) sample_glyph (by decide)⟩

/-! ## Face construction -/

/-- C7: for a reader with font size `{width, height}` whose glyph pixel count
`width * height` is representable as a `std::size_t`, constructing a face
succeeds (the glyph length check does not fail) and yields exactly `num_glyphs`
glyphs in index order, each of the size of the reader and of `width * height`
pixels, the pixel of glyph `i` at position `y * width + x` being
`is_pixel_set(i, {x, y})`. -/
theorem Face_ofReader_glyphs (data : FaceReader)
    (hrep : data.font_size.width * data.font_size.height < SIZE_MOD) :
    ∃ f, Face.ofReader data = Except.ok f
      ∧ f.sz_ = data.font_size
      ∧ f.glyphs_.length = data.num_glyphs
      ∧ ∀ i, i < data.num_glyphs →
          ∃ g, f.glyphs_[i]? = some g
            ∧ g.size_ = data.font_size
            ∧ g.pixels_.length = data.font_size.width * data.font_size.height
            ∧ ∀ y x, y < data.font_size.height → x < data.font_size.width →
                g.pixels_[y * data.font_size.width + x]?
                  = some (data.is_pixel_set i { x := x, y := y }) := by
  refine ⟨_, ofReader_eq data hrep, rfl, by simp, ?_⟩
  intro i hi
  refine ⟨{ size_ := data.font_size, pixels_ := Face.read_pixels data i }, ?_, rfl,
    read_pixels_length data i, ?_⟩
  · simp [hi]
  · intro y x hy hx
    exact read_pixels_getElem? data i x y hx hy

/-- C7 at the sample reader of two 2x2 glyphs. -/
theorem Face_ofReader_glyphs_witness :
    sample_reader.font_size.width * sample_reader.font_size.height < SIZE_MOD
    ∧ ∃ f, Face.ofReader sample_reader = Except.ok f
      ∧ f.sz_ = sample_reader.font_size
      ∧ f.glyphs_.length = sample_reader.num_glyphs
      ∧ ∀ i, i < sample_reader.num_glyphs →
          ∃ g, f.glyphs_[i]? = some g
            ∧ g.size_ = sample_reader.font_size
            ∧ g.pixels_.length
                = sample_reader.font_size.width * sample_reader.font_size.height
            ∧ ∀ y x, y < sample_reader.font_size.height →
                x < sample_reader.font_size.width →
                g.pixels_[y * sample_reader.font_size.width + x]?
                  = some (sample_reader.is_pixel_set i { x := x, y := y }) :=
  ⟨by decide, Face_ofReader_glyphs sample_reader (by decide)⟩

/-- C8: the face constructed from a reader with glyph count `n` has the
exported-glyph set `{0, 1, ..., n-1}`: it has `n` glyphs and an index is
exported exactly when it is a glyph index. The construction succeeds for every
reader whose glyph pixel count is representable as a `std::size_t`. -/
theorem Face_ofReader_exports_all (data : FaceReader) :
    (∀ f, Face.ofReader data = Except.ok f →
      f.glyphs_.length = data.num_glyphs
      ∧ f.exported_glyph_ids_ = Finset.range data.num_glyphs
      ∧ ∀ i, i ∈ f.exported_glyph_ids_ ↔ i < data.num_glyphs)
    ∧ (data.font_size.width * data.font_size.height < SIZE_MOD →
      ∃ f, Face.ofReader data = Except.ok f) := by
  constructor
  · intro f hf
    obtain ⟨-, h2, h3⟩ := ofReader_ok data f hf
    refine ⟨h2, h3, ?_⟩
    intro i
    rw [h3]
    exact Finset.mem_range
  · intro hrep
    exact ⟨_, ofReader_eq data hrep⟩

/-- C8 at the sample reader: the face is built and exports the indices 0 and 1. -/
theorem Face_ofReader_exports_all_witness :
    ∃ f, Face.ofReader sample_reader = Except.ok f
      ∧ f.glyphs_.length = 2
      ∧ f.exported_glyph_ids_ = {0, 1}
      ∧ ∀ i, i ∈ f.exported_glyph_ids_ ↔ i < 2 :=
  ((Face_ofReader_exports_all sample_reader).2 (by decide)).elim
    (fun f hf =>
      ⟨f, hf, ((Face_ofReader_exports_all sample_reader).1 f hf).1,
        ((Face_ofReader_exports_all sample_reader).1 f hf).2.1.trans (by decide),
        ((Face_ofReader_exports_all sample_reader).1 f hf).2.2⟩)

/-- C9, as stated, fails: a face assembled directly from one glyph and the
exported-id set `{0, 5}` keeps the index 5, which is no position of its glyph
sequence. -/
theorem Face_ofParts_exported_id_invalid :
    ¬ (∀ i ∈ (Face.ofParts ⟨1, 1⟩ [Glyph.ofSize ⟨1, 1⟩] {0, 5}).exported_glyph_ids_,
        i < (Face.ofParts ⟨1, 1⟩ [Glyph.ofSize ⟨1, 1⟩] {0, 5}).glyphs_.length) := by
  decide

/-- C9, amended: every exported index of a face constructed from a reader is a
valid position of its glyph sequence; a face assembled directly holds exactly
the glyph sequence and the exported-id set it was given, so its exported
indices are valid exactly when every given id is smaller than the number of
given glyphs. -/
theorem Face_exported_ids_valid :
    (∀ (data : FaceReader) (f : Face), Face.ofReader data = Except.ok f →
      ∀ i ∈ f.exported_glyph_ids_, i < f.glyphs_.length)
    ∧ (∀ (size : Size) (glyphs : List Glyph) (ids : Finset Nat),
        (Face.ofParts size glyphs ids).glyphs_ = glyphs
        ∧ (Face.ofParts size glyphs ids).exported_glyph_ids_ = ids
        ∧ ((∀ i ∈ (Face.ofParts size glyphs ids).exported_glyph_ids_,
              i < (Face.ofParts size glyphs ids).glyphs_.length)
            ↔ ∀ i ∈ ids, i < glyphs.length)) := by
  constructor
  · intro data f hf i hi
    obtain ⟨-, h2, h3⟩ := ofReader_ok data f hf
    rw [h3] at hi
    rw [h2]
    exact Finset.mem_range.mp hi
  · intro size glyphs ids
    exact ⟨rfl, rfl, Iff.rfl⟩

/-- C9, amended, at the face built from the sample reader and at a directly
assembled face with a valid exported-id set. -/
theorem Face_exported_ids_valid_witness :
    (∃ f, Face.ofReader sample_reader = Except.ok f
        ∧ ∀ i ∈ f.exported_glyph_ids_, i < f.glyphs_.length)
    ∧ (∀ i ∈ (Face.ofParts ⟨1, 1⟩ [Glyph.ofSize ⟨1, 1⟩] {0}).exported_glyph_ids_,
        i < (Face.ofParts ⟨1, 1⟩ [Glyph.ofSize ⟨1, 1⟩] {0}).glyphs_.length) :=
  ⟨⟨_, ofReader_eq sample_reader (by decide),
      Face_exported_ids_valid.1 sample_reader _ (ofReader_eq sample_reader (by decide))⟩,
   ((Face_exported_ids_valid.2 ⟨1, 1⟩ [Glyph.ofSize ⟨1, 1⟩] {0}).2.2).mpr (by decide)⟩

end font

/-! ## Glyph comments of the generated source -/

namespace FontSourceCodeGenerator

set_option maxRecDepth 1000000 in
/-- The comment of every glyph index up to 223, computed by the stream operations of
the source, is the text of the specification for the code-point `index + 32`. -/
theorem comment_for_glyph_table :
    ∀ i, i < 224 → comment_for_glyph i = some (comment_text (i + 32)) := by
  decide

/-- C10: for every glyph index `i` with code-point `c = i + 32 <= 255`,
`comment_for_glyph(i)` is `Character 0x`, then `c` in two lowercase hexadecimal
digits, then ` (` and `c` in decimal, then the quoted character of code `c`
exactly when `32 <= c <= 126`, then `)`. In particular the comment of index 0 is
`Character 0x20 (32: ' ')`, with the quoted character, and the comment of index
95 is `Character 0x7f (127)`, without it. -/
theorem comment_for_glyph_text :
    (∀ i, i + 32 ≤ 255 → comment_for_glyph i = some (comment_text (i + 32)))
    ∧ comment_for_glyph 0 = some "Character 0x20 (32: ' ')"
    ∧ comment_for_glyph 95 = some "Character 0x7f (127)" :=
  ⟨fun i h => comment_for_glyph_table i (by omega), by decide, by decide⟩

/-- C10 at index 94, the last printable code-point, and at index 223, the last
code-point covered. -/
theorem comment_for_glyph_text_witness :
    comment_for_glyph 94 = some "Character 0x7e (126: '~')"
    ∧ comment_for_glyph 223 = some "Character 0xff (255)" :=
  ⟨(comment_for_glyph_text.1 94 (by decide)).trans (by decide),
   (comment_for_glyph_text.1 223 (by decide)).trans (by decide)⟩

end FontSourceCodeGenerator

/-! ## Further auxiliary lemmas -/

namespace font

theorem getElem?_of_lt_find_distance (l : List Bool) (j : Nat)
    (h : j < find_distance true l) : l[j]? = some false := by
  induction l generalizing j with
  | nil => simp [find_distance] at h
  | cons p ps ih =>
    cases p with
    | true => simp [find_distance] at h
    | false =>
      cases j with
      | zero => simp
      | succ k =>
        simp only [find_distance, Bool.false_eq_true, if_false] at h
        simpa using ih k (by omega)

theorem first_le_last (l : List Bool) (i k : Nat) (hi : is_first_set_pixel l i)
    (hk : is_last_set_pixel l k) : i ≤ k := by
  by_contra hc
  have hlt := lt_length_of_getElem? hi.1
  have := hk.2 i hlt (by omega)
  rw [hi.1] at this
  cases this

/-- The empty rows counted from the top and from the bottom of a glyph with a set
pixel do not cover all pixels. -/
theorem find_distance_add_reverse_lt (l : List Bool) (h : true ∈ l) :
    find_distance true l + find_distance true l.reverse < l.length := by
  have h1 := first_of_find_distance l h
  obtain ⟨k, hk⟩ := exists_last_set_pixel l h
  have h2 := find_distance_of_first _ _ (first_reverse_of_last l k hk)
  have h3 := first_le_last l _ k h1 hk
  have h4 := lt_length_of_getElem? hk.1
  omega

/-- Row arithmetic: counted from the end of `w * H` pixels, the pixel at index `i`
is in row `H - 1 - i / w`. -/
theorem div_sub_last (w H i : Nat) (hw : 1 ≤ w) (hi : i < w * H) :
    (w * H - 1 - i) / w = H - 1 - i / w := by
  have hq : i / w < H := Nat.div_lt_of_lt_mul hi
  have hdm : w * (i / w) + i % w = i := Nat.div_add_mod i w
  have hmod : i % w < w := Nat.mod_lt _ (by omega)
  generalize i / w = q at *
  generalize i % w = r at *
  obtain ⟨k, hk⟩ : ∃ k, H = q + 1 + k := ⟨H - 1 - q, by omega⟩
  have hwh : w * H = w * q + w + w * k := by
    rw [hk, Nat.mul_add, Nat.mul_add, Nat.mul_one]
  have hval : w * H - 1 - i = w * k + (w - 1 - r) := by omega
  rw [hval, Nat.mul_add_div (by omega), Nat.div_eq_of_lt (by omega)]
  omega

/-- The margins of a glyph with a set pixel leave at least one row. -/
theorem margins_add_lt (g : Glyph)
    (hlen : g.pixels_.length = g.size_.width * g.size_.height) (hset : true ∈ g.pixels_) :
    find_distance true g.pixels_ / g.size_.width
      + find_distance true g.pixels_.reverse / g.size_.width < g.size_.height := by
  have h1 := find_distance_add_reverse_lt g.pixels_ hset
  rw [hlen] at h1
  have h2 : find_distance true g.pixels_ / g.size_.width
      + find_distance true g.pixels_.reverse / g.size_.width
      ≤ (find_distance true g.pixels_ + find_distance true g.pixels_.reverse)
          / g.size_.width := Nat.add_div_le_add_div _ _ _
  have h3 : (find_distance true g.pixels_ + find_distance true g.pixels_.reverse)
      / g.size_.width < g.size_.height := Nat.div_lt_of_lt_mul h1
  omega

/-- The margins of a glyph without a set pixel are its height. -/
theorem margins_of_all_off (g : Glyph) (hw : 1 ≤ g.size_.width)
    (hlen : g.pixels_.length = g.size_.width * g.size_.height) (hoff : true ∉ g.pixels_) :
    g.top_margin = some g.size_.height ∧ g.bottom_margin = some g.size_.height := by
  have hoff1 : ∀ p ∈ g.pixels_, p = false := by
    intro p hp
    cases p with
    | false => rfl
    | true => exact absurd hp hoff
  have hoff2 : ∀ p ∈ g.pixels_.reverse, p = false := fun p hp => hoff1 p (by simpa using hp)
  rw [top_margin_eq g hw, bottom_margin_eq g hw, find_distance_all_off _ hoff1,
    find_distance_all_off _ hoff2, List.length_reverse, hlen,
    Nat.mul_div_cancel_left _ (by omega)]
  exact ⟨rfl, rfl⟩

end font

/-! ## Look-up table values of the generated source -/

namespace FontSourceCodeGenerator

/-- C11: `lut_value_for_glyph(i)` is the text `0` when `i == 0` and otherwise the
text `bytes_per_char * ` followed by the decimal representation of `i`; in
particular it is `0` for index 0 and `bytes_per_char * 5` for index 5. -/
theorem lut_value_for_glyph_text :
    (∀ i, lut_value_for_glyph i
        = if i = 0 then "0" else "bytes_per_char * " ++ Nat.repr i)
    ∧ lut_value_for_glyph 0 = "0"
    ∧ lut_value_for_glyph 5 = "bytes_per_char * 5" := by
  refine ⟨?_, by decide, by decide⟩
  intro i
  by_cases h : i = 0
  · simp [lut_value_for_glyph, h]
  · simp only [lut_value_for_glyph, h, if_false, ostringstream.new, ostringstream.put_string,
      ostringstream.put_size_t, ostringstream.put, Nat.repr]
    simp only [Nat.zero_sub, List.replicate_zero, List.nil_append, Bool.false_eq_true,
      if_false]
    apply String.ext
    simp [List.asString]

/-- C11 at index 123: the text is `bytes_per_char * 123`. -/
theorem lut_value_for_glyph_text_witness :
    lut_value_for_glyph 123 = "bytes_per_char * 123" :=
  (lut_value_for_glyph_text.1 123).trans (by decide)

end FontSourceCodeGenerator

/-! ## The glyph invariant and `clear` -/

namespace font

/-- C13: the length invariant holds for every glyph the operations produce: after
`Glyph(size)`, after a successful `Glyph(size, pixels)` and after `clear()` on
any glyph, the pixel-sequence length equals `width * height` of the size of
the glyph (the `std::size_t` product the operations compute, which is the exact
product whenever that is representable), and `clear()` leaves the size
unchanged. -/
theorem Glyph_length_invariant :
    (∀ sz : Size, (Glyph.ofSize sz).size_ = sz
      ∧ (Glyph.ofSize sz).pixels_.length = size_mul sz.width sz.height)
    ∧ (∀ (sz : Size) (pixels : List Bool) (g : Glyph),
        Glyph.ofPixels sz pixels = Except.ok g →
        g.size_ = sz ∧ g.pixels_.length = size_mul g.size_.width g.size_.height)
    ∧ (∀ g : Glyph, g.clear.size_ = g.size_
      ∧ g.clear.pixels_.length = size_mul g.clear.size_.width g.clear.size_.height)
    ∧ (∀ g : Glyph, g.pixels_.length = size_mul g.size_.width g.size_.height →
        g.size_.width * g.size_.height < SIZE_MOD →
        g.pixels_.length = g.size_.width * g.size_.height) := by
  refine ⟨?_, ?_, ?_, ?_⟩
  · intro sz
    simp [Glyph.ofSize]
  · intro sz pixels g h
    unfold Glyph.ofPixels at h
    split at h
    · cases h
    · rename_i hlen
      cases h
      exact ⟨rfl, not_not.mp hlen⟩
  · intro g
    simp [Glyph.clear]
  · intro g hv hrep
    rw [hv, size_mul_of_lt _ _ hrep]

/-- C13 at a 2x3 size: the empty glyph, a glyph built from six pixels and the
cleared sample glyph all have six pixels. -/
theorem Glyph_length_invariant_witness :
    (Glyph.ofSize ⟨2, 3⟩).pixels_.length = 2 * 3
    ∧ (∃ g, Glyph.ofPixels ⟨2, 3⟩ [true, false, true, false, true, false] = Except.ok g
        ∧ g.size_ = ⟨2, 3⟩ ∧ g.pixels_.length = 2 * 3)
    ∧ sample_glyph.clear.size_ = sample_glyph.size_
    ∧ sample_glyph.clear.pixels_.length = 2 * 3 :=
  ⟨Glyph_length_invariant.2.2.2 (Glyph.ofSize ⟨2, 3⟩)
      (Glyph_length_invariant.1 ⟨2, 3⟩).2 (by decide),
   ⟨{ size_ := ⟨2, 3⟩, pixels_ := [true, false, true, false, true, false] }, rfl,
      (Glyph_length_invariant.2.1 ⟨2, 3⟩ [true, false, true, false, true, false] _ rfl).1,
      Glyph_length_invariant.2.2.2 _
        (Glyph_length_invariant.2.1 ⟨2, 3⟩ [true, false, true, false, true, false] _ rfl).2
        (by decide)⟩,
   (Glyph_length_invariant.2.2.1 sample_glyph).1,
   Glyph_length_invariant.2.2.2 sample_glyph.clear
      (Glyph_length_invariant.2.2.1 sample_glyph).2 (by decide)⟩

/-- C14: `clear()` resets all pixels to off and nothing else: the cleared glyph is
the empty glyph `Glyph(g.size)`, of the same size, with `width * height` pixels
(the `std::size_t` product), all off, whatever pixels `g` held before;
consequently `clear()` is idempotent. -/
theorem Glyph_clear_resets (g : Glyph) :
    g.clear = Glyph.ofSize g.size_
    ∧ g.clear.size_ = g.size_
    ∧ g.clear.pixels_.length = size_mul g.size_.width g.size_.height
    ∧ (∀ p ∈ g.clear.pixels_, p = false)
    ∧ (∀ pixels : List Bool, ({ g with pixels_ := pixels } : Glyph).clear = g.clear)
    ∧ g.clear.clear = g.clear := by
  refine ⟨rfl, rfl, by simp [Glyph.clear], ?_, fun _ => rfl, rfl⟩
  intro p hp
  simp only [Glyph.clear] at hp
  exact (List.mem_replicate.mp hp).2

/-- C14 at the sample glyph: clearing gives the empty 2x3 glyph, and clearing again
changes nothing. -/
theorem Glyph_clear_resets_witness :
    sample_glyph.clear = Glyph.ofSize ⟨2, 3⟩
    ∧ sample_glyph.clear.pixels_ = [false, false, false, false, false, false]
    ∧ sample_glyph.clear.clear = sample_glyph.clear :=
  ⟨(Glyph_clear_resets sample_glyph).1,
   (congrArg Glyph.pixels_ (Glyph_clear_resets sample_glyph).1).trans (by decide),
   (Glyph_clear_resets sample_glyph).2.2.2.2.2⟩

/-- C15: a glyph of width at least 1 and height `H` (with `width * H` pixels)
whose set pixels all lie in row `r < H`, with at least one pixel of row `r`
set, has `top_margin() == r` and `bottom_margin() == H - 1 - r`. -/
theorem Glyph_single_row_margins (g : Glyph) (r : Nat) (hw : 1 ≤ g.size_.width)
    (hlen : g.pixels_.length = g.size_.width * g.size_.height) (_hr : r < g.size_.height)
    (hrow : ∀ y x, x < g.size_.width →
      g.pixels_[y * g.size_.width + x]? = some true → y = r)
    (hset : g.row_has_set_pixel r) :
    g.top_margin = some r ∧ g.bottom_margin = some (g.size_.height - 1 - r) := by
  have hmem : true ∈ g.pixels_ := by
    obtain ⟨x, -, hx⟩ := hset
    exact List.mem_iff_getElem?.mpr ⟨_, hx⟩
  have hrow' : ∀ i, g.pixels_[i]? = some true → i / g.size_.width = r := by
    intro i hi
    apply hrow (i / g.size_.width) (i % g.size_.width) (Nat.mod_lt _ (by omega))
    have : i / g.size_.width * g.size_.width + i % g.size_.width = i := by
      rw [Nat.mul_comm]; exact Nat.div_add_mod i g.size_.width
    rw [this]; exact hi
  have h1 := first_of_find_distance g.pixels_ hmem
  obtain ⟨k, hk⟩ := exists_last_set_pixel g.pixels_ hmem
  have h2 := find_distance_of_first _ _ (first_reverse_of_last g.pixels_ k hk)
  have hkl := lt_length_of_getElem? hk.1
  constructor
  · rw [top_margin_eq g hw, hrow' _ h1.1]
  · rw [bottom_margin_eq g hw, h2, hlen, div_sub_last _ _ _ hw (by omega), hrow' _ hk.1]

/-- C15 at the 8-row glyph of width 2 with only row 3 set: `top_margin() == 3` and
`bottom_margin() == 4`. -/
theorem Glyph_single_row_margins_witness :
    (1 ≤ sample_glyph_row3.size_.width
      ∧ sample_glyph_row3.pixels_.length
          = sample_glyph_row3.size_.width * sample_glyph_row3.size_.height
      ∧ sample_glyph_row3.size_.height = 8
      ∧ (∀ y x, x < sample_glyph_row3.size_.width →
          sample_glyph_row3.pixels_[y * sample_glyph_row3.size_.width + x]? = some true →
          y = 3)
      ∧ sample_glyph_row3.row_has_set_pixel 3)
    ∧ sample_glyph_row3.top_margin = some 3
    ∧ sample_glyph_row3.bottom_margin = some 4 := by
  have key : ∀ y, y < 8 → ∀ x, x < 2 →
      sample_glyph_row3.pixels_[y * 2 + x]? = some true → y = 3 := by
    decide
  have hrow : ∀ y x, x < sample_glyph_row3.size_.width →
      sample_glyph_row3.pixels_[y * sample_glyph_row3.size_.width + x]? = some true →
      y = 3 := by
    intro y x hx h
    have hlt := lt_length_of_getElem? h
    have hx2 : x < 2 := hx
    have hy : y < 8 := by
      have : y * 2 + x < 16 := hlt
      omega
    exact key y hy x hx2 h
  exact ⟨⟨by decide, by decide, rfl, hrow, by decide⟩,
    Glyph_single_row_margins sample_glyph_row3 3 (by decide) (by decide) (by decide) hrow
      (by decide)⟩

end font

/-! ## Equality of indentations -/

namespace SourceCode

/-- C16: equality of `Indentation` values compares the kind and, for `Space`, the
count: `Tab == Tab` is true, `Space{a} == Space{b}` is true exactly when
`a == b`, and a `Tab` and a `Space` are never equal, in either order, whatever
the count; in all, `==` is equality of the two values. -/
theorem Indentation_op_eq :
    Indentation.op_eq (Indentation.tab {}) (Indentation.tab {}) = some true
    ∧ (∀ a b : Nat, Indentation.op_eq (Indentation.space ⟨a⟩) (Indentation.space ⟨b⟩)
        = some (decide (a = b)))
    ∧ (∀ a : Nat, Indentation.op_eq (Indentation.tab {}) (Indentation.space ⟨a⟩) = some false
        ∧ Indentation.op_eq (Indentation.space ⟨a⟩) (Indentation.tab {}) = some false)
    ∧ (∀ lhs rhs : Indentation, Indentation.op_eq lhs rhs = some (decide (lhs = rhs))) := by
  refine ⟨rfl, ?_, ?_, ?_⟩
  · intro a b
    simp [Indentation.op_eq, Indentation.holds_Tab, Indentation.holds_Space,
      Indentation.get_Space]
    rfl
  · intro a
    exact ⟨rfl, rfl⟩
  · intro lhs rhs
    cases lhs with
    | tab t =>
      cases rhs with
      | tab u => simp [Indentation.op_eq, Indentation.holds_Tab]
      | space s => simp [Indentation.op_eq, Indentation.holds_Tab, Indentation.holds_Space]
    | space s =>
      cases rhs with
      | tab u => simp [Indentation.op_eq, Indentation.holds_Tab, Indentation.holds_Space]
      | space u =>
        cases s
        cases u
        simp [Indentation.op_eq, Indentation.holds_Tab, Indentation.holds_Space,
          Indentation.get_Space]
        rfl

/-- C16 at runs of four blanks and of no blank. -/
theorem Indentation_op_eq_witness :
    Indentation.op_eq (Indentation.space ⟨4⟩) (Indentation.space ⟨4⟩) = some true
    ∧ Indentation.op_eq (Indentation.space ⟨4⟩) (Indentation.space ⟨2⟩) = some false
    ∧ Indentation.op_eq (Indentation.tab {}) (Indentation.space ⟨0⟩) = some false
    ∧ Indentation.op_eq (Indentation.space ⟨0⟩) (Indentation.tab {}) = some false :=
  ⟨(Indentation_op_eq.2.1 4 4).trans (by decide),
   (Indentation_op_eq.2.1 4 2).trans (by decide),
   (Indentation_op_eq.2.2.1 0).1,
   (Indentation_op_eq.2.2.1 0).2⟩

end SourceCode

/-! ## Pixel margins -/

/-- C19: `pixel_margins` returns `{top * width, bottom * width}` (the `std::size_t`
products, which are the exact products whenever these are representable),
whatever the height of the glyph size. -/
theorem pixel_margins_eq (m : font.Margins) (sz : font.Size) :
    pixel_margins m sz
        = { top := size_mul m.top sz.width, bottom := size_mul m.bottom sz.width }
    ∧ (∀ height : Nat, pixel_margins m { width := sz.width, height := height }
        = pixel_margins m sz)
    ∧ (m.top * sz.width < SIZE_MOD → m.bottom * sz.width < SIZE_MOD →
        pixel_margins m sz = { top := m.top * sz.width, bottom := m.bottom * sz.width }) := by
  refine ⟨rfl, fun _ => rfl, ?_⟩
  intro h1 h2
  simp [pixel_margins, size_mul_of_lt _ _ h1, size_mul_of_lt _ _ h2]

/-- C19 at the row margins `{1, 2}` and the size 5x7: the pixel margins are `{5, 10}`. -/
theorem pixel_margins_eq_witness :
    pixel_margins { top := 1, bottom := 2 } { width := 5, height := 7 }
      = { top := 5, bottom := 10 } :=
  (pixel_margins_eq { top := 1, bottom := 2 } { width := 5, height := 7 }).2.2
    (by decide) (by decide)

/-! ## Trimming by the face margins -/

namespace font

/-- C17: trimming by the face margins never discards a set pixel: for a face of
width at least 1 whose glyphs all have the size of the face (and
`width * height` pixels), with `m = pixel_margins(calculate_margins(), size)`,
in every glyph the first `m.top` pixels and the last `m.bottom` pixels of the
row-major pixel sequence exist and are all off. -/
theorem Face_trim_keeps_set_pixels (f : Face) (hw : 1 ≤ f.sz_.width)
    (hsz : ∀ g ∈ f.glyphs_,
      g.size_ = f.sz_ ∧ g.pixels_.length = f.sz_.width * f.sz_.height) :
    ∃ lm, f.calculate_margins = some lm ∧
      ∀ g ∈ f.glyphs_,
        (pixel_margins lm f.sz_).top ≤ g.pixels_.length
        ∧ (pixel_margins lm f.sz_).bottom ≤ g.pixels_.length
        ∧ (∀ j, j < (pixel_margins lm f.sz_).top → g.pixels_[j]? = some false)
        ∧ (∀ j, g.pixels_.length - (pixel_margins lm f.sz_).bottom ≤ j →
            j < g.pixels_.length → g.pixels_[j]? = some false) := by
  have hws : ∀ g ∈ f.glyphs_, 1 ≤ g.size_.width := by
    intro g hg
    rw [(hsz g hg).1]
    exact hw
  obtain ⟨lm, hlm, -, -, h3, h4, -, -⟩ :=
    foldlM_margins_step f.glyphs_ hws { top := f.sz_.height, bottom := f.sz_.height }
  refine ⟨lm, hlm, ?_⟩
  intro g hg
  have hgw : g.size_.width = f.sz_.width := by rw [(hsz g hg).1]
  have ht := h3 g hg _ (top_margin_eq g (hws g hg))
  have hb := h4 g hg _ (bottom_margin_eq g (hws g hg))
  rw [hgw] at ht hb
  have htop : (pixel_margins lm f.sz_).top ≤ find_distance true g.pixels_ :=
    calc (pixel_margins lm f.sz_).top
        ≤ lm.top * f.sz_.width := size_mul_le _ _
      _ ≤ find_distance true g.pixels_ / f.sz_.width * f.sz_.width :=
          Nat.mul_le_mul_right _ ht
      _ ≤ find_distance true g.pixels_ := Nat.div_mul_le_self _ _
  have hbot : (pixel_margins lm f.sz_).bottom ≤ find_distance true g.pixels_.reverse :=
    calc (pixel_margins lm f.sz_).bottom
        ≤ lm.bottom * f.sz_.width := size_mul_le _ _
      _ ≤ find_distance true g.pixels_.reverse / f.sz_.width * f.sz_.width :=
          Nat.mul_le_mul_right _ hb
      _ ≤ find_distance true g.pixels_.reverse := Nat.div_mul_le_self _ _
  have hl1 := find_distance_le true g.pixels_
  have hl2 := find_distance_le true g.pixels_.reverse
  rw [List.length_reverse] at hl2
  refine ⟨by omega, by omega, ?_, ?_⟩
  · intro j hj
    exact getElem?_of_lt_find_distance _ _ (by omega)
  · intro j hj1 hj2
    have := getElem?_of_lt_find_distance g.pixels_.reverse (g.pixels_.length - 1 - j)
      (by omega)
    rw [List.getElem?_reverse (by omega)] at this
    have e : g.pixels_.length - 1 - (g.pixels_.length - 1 - j) = j := by omega
    rw [e] at this
    exact this

/-- C17 at the sample face of two 2x3 glyphs: the row margins are `{1, 0}`, the
pixel margins `{2, 0}`, and the first two pixels of both glyphs are off. -/
theorem Face_trim_keeps_set_pixels_witness :
    (1 ≤ sample_face.sz_.width
      ∧ ∀ g ∈ sample_face.glyphs_, g.size_ = sample_face.sz_
          ∧ g.pixels_.length = sample_face.sz_.width * sample_face.sz_.height)
    ∧ ∃ lm, sample_face.calculate_margins = some lm ∧
      ∀ g ∈ sample_face.glyphs_,
        (pixel_margins lm sample_face.sz_).top ≤ g.pixels_.length
        ∧ (pixel_margins lm sample_face.sz_).bottom ≤ g.pixels_.length
        ∧ (∀ j, j < (pixel_margins lm sample_face.sz_).top → g.pixels_[j]? = some false)
        ∧ (∀ j, g.pixels_.length - (pixel_margins lm sample_face.sz_).bottom ≤ j →
            j < g.pixels_.length → g.pixels_[j]? = some false) :=
  ⟨by decide, Face_trim_keeps_set_pixels sample_face (by decide) (by decide)⟩

/-- C18: for a face of width and height at least 1 whose glyphs all have the size
of the face (and `width * height` pixels), the margins `{top, bottom}` of
`calculate_margins()` satisfy `top + bottom < height` if and only if some glyph
of the face has a set pixel; when no glyph has a set pixel (in particular when
the face has no glyphs), `top == bottom == height` and `top + bottom` exceeds
the height. -/
theorem Face_margins_leave_row_iff (f : Face) (hw : 1 ≤ f.sz_.width)
    (hh : 1 ≤ f.sz_.height)
    (hsz : ∀ g ∈ f.glyphs_,
      g.size_ = f.sz_ ∧ g.pixels_.length = f.sz_.width * f.sz_.height) :
    ∃ m, f.calculate_margins = some m
      ∧ (m.top + m.bottom < f.sz_.height ↔ ∃ g ∈ f.glyphs_, true ∈ g.pixels_)
      ∧ ((∀ g ∈ f.glyphs_, true ∉ g.pixels_) →
          m.top = f.sz_.height ∧ m.bottom = f.sz_.height
          ∧ f.sz_.height < m.top + m.bottom) := by
  have hws : ∀ g ∈ f.glyphs_, 1 ≤ g.size_.width := by
    intro g hg
    rw [(hsz g hg).1]
    exact hw
  have hlen : ∀ g ∈ f.glyphs_, g.pixels_.length = g.size_.width * g.size_.height := by
    intro g hg
    rw [(hsz g hg).1]
    exact (hsz g hg).2
  obtain ⟨m, hm, -, -, h3, h4, h5, h6⟩ :=
    foldlM_margins_step f.glyphs_ hws { top := f.sz_.height, bottom := f.sz_.height }
  simp only at h5 h6
  have hoff : (∀ g ∈ f.glyphs_, true ∉ g.pixels_) →
      m.top = f.sz_.height ∧ m.bottom = f.sz_.height := by
    intro hall
    constructor
    · rcases h5 with h5 | ⟨g, hg, e⟩
      · exact h5
      · have := (margins_of_all_off g (hws g hg) (hlen g hg) (hall g hg)).1
        rw [e, (hsz g hg).1] at this
        exact Option.some.inj this
    · rcases h6 with h6 | ⟨g, hg, e⟩
      · exact h6
      · have := (margins_of_all_off g (hws g hg) (hlen g hg) (hall g hg)).2
        rw [e, (hsz g hg).1] at this
        exact Option.some.inj this
  refine ⟨m, hm, ⟨?_, ?_⟩, ?_⟩
  · intro hlt
    by_contra hnone
    have hall : ∀ g ∈ f.glyphs_, true ∉ g.pixels_ := by
      intro g hg hmem
      exact hnone ⟨g, hg, hmem⟩
    obtain ⟨e1, e2⟩ := hoff hall
    omega
  · rintro ⟨g, hg, hmem⟩
    have ht := h3 g hg _ (top_margin_eq g (hws g hg))
    have hb := h4 g hg _ (bottom_margin_eq g (hws g hg))
    have hsum := margins_add_lt g (hlen g hg) hmem
    rw [(hsz g hg).1] at ht hb hsum
    omega
  · intro hall
    obtain ⟨e1, e2⟩ := hoff hall
    exact ⟨e1, e2, by omega⟩

/-- C18 at the sample face, whose glyphs have set pixels (one row survives), and at
the face without glyphs, whose margins are both the height. -/
theorem Face_margins_leave_row_iff_witness :
    ((1 ≤ sample_face.sz_.width ∧ 1 ≤ sample_face.sz_.height
        ∧ ∀ g ∈ sample_face.glyphs_, g.size_ = sample_face.sz_
            ∧ g.pixels_.length = sample_face.sz_.width * sample_face.sz_.height)
      ∧ ∃ g ∈ sample_face.glyphs_, true ∈ g.pixels_)
    ∧ (∃ m, sample_face.calculate_margins = some m
        ∧ m.top + m.bottom < sample_face.sz_.height)
    ∧ (∃ m, sample_face_empty.calculate_margins = some m
        ∧ m.top = sample_face_empty.sz_.height ∧ m.bottom = sample_face_empty.sz_.height
        ∧ sample_face_empty.sz_.height < m.top + m.bottom) :=
  ⟨by decide,
   (Face_margins_leave_row_iff sample_face (by decide) (by decide) (by decide)).elim
     (fun m h => ⟨m, h.1, h.2.1.mpr (by decide)⟩),
   (Face_margins_leave_row_iff sample_face_empty (by decide) (by decide) (by decide)).elim
     (fun m h => ⟨m, h.1, h.2.2 (by decide)⟩)⟩

end font

/-! ## The timestamp of the generated source -/

namespace FontSourceCodeGenerator

theorem foldl_decimal_shift (cs : List Char) (a : Nat) :
    cs.foldl (fun acc c => 10 * acc + (c.toNat - 48)) a
      = a * 10 ^ cs.length + cs.foldl (fun acc c => 10 * acc + (c.toNat - 48)) 0 := by
  induction cs generalizing a with
  | nil => simp
  | cons c cs ih =>
    simp only [List.foldl_cons, List.length_cons]
    rw [ih (10 * a + (c.toNat - 48)), ih (10 * 0 + (c.toNat - 48))]
    ring

theorem digitChar_value : ∀ d, d < 10 → (Nat.digitChar d).toNat - 48 = d := by
  decide

theorem decimal_value_toDigitsCore (fuel n : Nat) (ds : List Char) (h : n < fuel) :
    decimal_value (Nat.toDigitsCore 10 fuel n ds)
      = n * 10 ^ ds.length + decimal_value ds := by
  induction fuel generalizing n ds with
  | zero => omega
  | succ fuel ih =>
    unfold Nat.toDigitsCore
    simp only
    have hd := digitChar_value (n % 10) (Nat.mod_lt _ (by omega))
    have hdm : 10 * (n / 10) + n % 10 = n := Nat.div_add_mod n 10
    split
    · rename_i h0
      unfold decimal_value
      simp only [List.foldl_cons]
      rw [foldl_decimal_shift, hd]
      have : n % 10 = n := by omega
      rw [this]
      simp
    · rename_i h0
      rw [ih (n / 10) _ (by omega)]
      unfold decimal_value
      simp only [List.foldl_cons, List.length_cons]
      rw [foldl_decimal_shift ds (10 * 0 + _), hd]
      have e : n * 10 ^ ds.length = (10 * (n / 10) + n % 10) * 10 ^ ds.length := by
        rw [hdm]
      rw [e]
      ring

/-- The decimal digits that the stream prints for a number have that number as
their value. -/
theorem decimal_value_toDigits (n : Nat) : decimal_value (Nat.toDigits 10 n) = n := by
  unfold Nat.toDigits
  rw [decimal_value_toDigitsCore _ _ _ (by omega)]
  simp [decimal_value]

theorem two_digits_length : ∀ n, n < 100 → (two_digits n).length = 2 := by
  decide

theorem two_digits_value : ∀ n, n < 100 → decimal_value (two_digits n) = n := by
  decide

theorem two_digits_inj (a b : Nat) (ha : a < 100) (hb : b < 100)
    (h : two_digits a = two_digits b) : a = b := by
  rw [← two_digits_value a ha, ← two_digits_value b hb, h]

theorem put_time_eq (t : tm) :
    put_time t = two_digits t.tm_mday ++ ('-' :: (two_digits (t.tm_mon + 1) ++ ('-'
      :: (Nat.toDigits 10 (t.tm_year + 1900) ++ (' ' :: (two_digits t.tm_hour ++ (':'
      :: (two_digits t.tm_min ++ (':' :: two_digits t.tm_sec))))))))) := by
  simp [put_time]

/-- Two calendar times with the same formatted text are the same time. -/
theorem put_time_inj (t1 t2 : tm) (h1 : t1.valid) (h2 : t2.valid)
    (h : put_time t1 = put_time t2) : t1 = t2 := by
  obtain ⟨a1, a2, a3, a4, a5, a6⟩ := h1
  obtain ⟨b1, b2, b3, b4, b5, b6⟩ := h2
  rw [put_time_eq, put_time_eq] at h
  have l1 := two_digits_length
  obtain ⟨e1, h⟩ := List.append_inj h (by rw [l1 _ (by omega), l1 _ (by omega)])
  obtain ⟨e2, h⟩ := List.append_inj (List.cons.inj h).2
    (by rw [l1 _ (by omega), l1 _ (by omega)])
  obtain ⟨e3, h⟩ := List.append_inj' (List.cons.inj h).2
    (by simp [l1 _ (show t1.tm_hour < 100 by omega), l1 _ (show t2.tm_hour < 100 by omega),
      l1 _ (show t1.tm_min < 100 by omega), l1 _ (show t2.tm_min < 100 by omega),
      l1 _ (show t1.tm_sec < 100 by omega), l1 _ (show t2.tm_sec < 100 by omega)])
  obtain ⟨e4, h⟩ := List.append_inj (List.cons.inj h).2
    (by rw [l1 _ (by omega), l1 _ (by omega)])
  obtain ⟨e5, h⟩ := List.append_inj (List.cons.inj h).2
    (by rw [l1 _ (by omega), l1 _ (by omega)])
  have e6 := (List.cons.inj h).2
  have d1 := two_digits_inj _ _ (by omega) (by omega) e1
  have d2 := two_digits_inj _ _ (by omega) (by omega) e2
  have d3 : t1.tm_year + 1900 = t2.tm_year + 1900 := by
    rw [← decimal_value_toDigits (t1.tm_year + 1900),
      ← decimal_value_toDigits (t2.tm_year + 1900), e3]
  have d4 := two_digits_inj _ _ (by omega) (by omega) e4
  have d5 := two_digits_inj _ _ (by omega) (by omega) e5
  have d6 := two_digits_inj _ _ (by omega) (by omega) e6
  cases t1
  cases t2
  simp only [tm.mk.injEq] at *
  omega

theorem current_timestamp_eq (now : tm) : current_timestamp now = String.mk (put_time now) := by
  simp only [current_timestamp, ostringstream.put, ostringstream.new, Nat.zero_sub,
    List.replicate_zero, List.nil_append]
  apply String.ext
  simp

/-- C12, as stated, fails: two invocations with the same font name and face whose
clock readings differ by one second emit different `Begin` events. -/
theorem begin_event_not_deterministic :
    begin_event sample_time "font" font.sample_face
      ≠ begin_event sample_time_later "font" font.sample_face := by
  decide

/-- C12, amended: the `Begin` event holds the given font name, the size of the
face and the timestamp `current_timestamp()`, which is the local time at
generation in the form `dd-mm-YYYY HH:MM:SS`; with identical inputs, two
invocations emit the same `Begin` event exactly when they read the same local
time. -/
theorem begin_event_time_dependence :
    (∀ (now : tm) (font_name : String) (face : font.Face),
      (begin_event now font_name face).font_name = font_name
      ∧ (begin_event now font_name face).font_size = face.sz_
      ∧ (begin_event now font_name face).timestamp = current_timestamp now
      ∧ current_timestamp now = String.mk (put_time now))
    ∧ (∀ (now1 now2 : tm) (font_name : String) (face : font.Face),
      now1.valid → now2.valid →
      (begin_event now1 font_name face = begin_event now2 font_name face ↔ now1 = now2)) := by
  constructor
  · intro now font_name face
    exact ⟨rfl, rfl, rfl, current_timestamp_eq now⟩
  · intro now1 now2 font_name face h1 h2
    constructor
    · intro h
      have ht : current_timestamp now1 = current_timestamp now2 :=
        congrArg SourceCode.Idiom.Begin.timestamp h
      rw [current_timestamp_eq, current_timestamp_eq] at ht
      exact put_time_inj now1 now2 h1 h2 (congrArg String.data ht)
    · intro h
      rw [h]

/-- C12, amended, at the sample time: the timestamp is `30-10-2026 14:23:07`, and
the `Begin` event of the reading one second later is another one. -/
theorem begin_event_time_dependence_witness :
    (sample_time.valid ∧ sample_time_later.valid)
    ∧ (begin_event sample_time "font" font.sample_face).timestamp = "30-10-2026 14:23:07"
    ∧ (begin_event sample_time "font" font.sample_face
          = begin_event sample_time_later "font" font.sample_face
        ↔ sample_time = sample_time_later) :=
  ⟨by decide,
   (begin_event_time_dependence.1 sample_time "font" font.sample_face).2.2.1.trans (by decide),
   begin_event_time_dependence.2 sample_time sample_time_later "font" font.sample_face
     (by decide) (by decide)⟩

end FontSourceCodeGenerator

/-! ## Change notification of the main window model -/

/-- C20: the change notification of the UI-enablement state is equality-gated, in
both versions of `registerInputEvent`: for every current state and every input
event the stored state afterwards is the state computed for the event;
`uiStateChanged`, carrying that state, is emitted (once, after the earlier
signals) exactly when the computed state differs from the current state; when
it equals the current state the model is left unchanged and nothing is
emitted. -/
theorem registerInputEvent_equality_gated (m : MainWindowModel) (e : InputEvent) :
    ((app_src.registerInputEvent m e).uiState_ = app_src.computed_state m.uiState_ e
      ∧ (app_src.computed_state m.uiState_ e ≠ m.uiState_ →
          (app_src.registerInputEvent m e).emitted
            = m.emitted ++ [Signal.uiStateChanged (app_src.computed_state m.uiState_ e)])
      ∧ (app_src.computed_state m.uiState_ e = m.uiState_ →
          app_src.registerInputEvent m e = m)
      ∧ ((app_src.registerInputEvent m e).emitted ≠ m.emitted
          ↔ app_src.computed_state m.uiState_ e ≠ m.uiState_))
    ∧ ((app.registerInputEvent m e).uiState_ = app.computed_state m.uiState_ e
      ∧ (app.computed_state m.uiState_ e ≠ m.uiState_ →
          (app.registerInputEvent m e).emitted
            = m.emitted ++ [Signal.uiStateChanged (app.computed_state m.uiState_ e)])
      ∧ (app.computed_state m.uiState_ e = m.uiState_ →
          app.registerInputEvent m e = m)
      ∧ ((app.registerInputEvent m e).emitted ≠ m.emitted
          ↔ app.computed_state m.uiState_ e ≠ m.uiState_)) := by
  constructor
  · by_cases h : app_src.computed_state m.uiState_ e = m.uiState_
    · have hr : app_src.registerInputEvent m e = m := by
        simp [app_src.registerInputEvent, h]
      refine ⟨by rw [hr, h], fun hne => absurd h hne, fun _ => hr, ?_⟩
      rw [hr]
      simp [h]
    · have hr : app_src.registerInputEvent m e
          = { uiState_ := app_src.computed_state m.uiState_ e
              emitted := m.emitted
                ++ [Signal.uiStateChanged (app_src.computed_state m.uiState_ e)] } := by
        simp [app_src.registerInputEvent, h]
      refine ⟨by rw [hr], fun _ => by rw [hr], fun heq => absurd heq h, ?_⟩
      rw [hr]
      simp [h]
  · by_cases h : app.computed_state m.uiState_ e = m.uiState_
    · have hr : app.registerInputEvent m e = m := by
        simp [app.registerInputEvent, h]
      refine ⟨by rw [hr, h], fun hne => absurd h hne, fun _ => hr, ?_⟩
      rw [hr]
      simp [h]
    · have hr : app.registerInputEvent m e
          = { uiState_ := app.computed_state m.uiState_ e
              emitted := m.emitted
                ++ [Signal.uiStateChanged (app.computed_state m.uiState_ e)] } := by
        simp [app.registerInputEvent, h]
      refine ⟨by rw [hr], fun _ => by rw [hr], fun heq => absurd heq h, ?_⟩
      rw [hr]
      simp [h]

/-- C20 at the idle model: loading a face changes the state and emits it once;
registering the same event again changes and emits nothing. -/
theorem registerInputEvent_equality_gated_witness :
    (app_src.registerInputEvent { uiState_ := ∅, emitted := [] }
        (InputEvent.user UserAction.UserLoadedFace)).emitted
      = [Signal.uiStateChanged (app_src.computed_state ∅
          (InputEvent.user UserAction.UserLoadedFace))]
    ∧ app_src.registerInputEvent
        (app_src.registerInputEvent { uiState_ := ∅, emitted := [] }
          (InputEvent.user UserAction.UserLoadedFace))
        (InputEvent.user UserAction.UserLoadedFace)
      = app_src.registerInputEvent { uiState_ := ∅, emitted := [] }
          (InputEvent.user UserAction.UserLoadedFace)
    ∧ app.registerInputEvent
        { uiState_ := {InterfaceAction.ActionImportFont}, emitted := [] }
        (InputEvent.user UserAction.UserIdle)
      = { uiState_ := {InterfaceAction.ActionImportFont}, emitted := [] } :=
  ⟨((registerInputEvent_equality_gated { uiState_ := ∅, emitted := [] }
        (InputEvent.user UserAction.UserLoadedFace)).1.2.1 (by decide)),
   ((registerInputEvent_equality_gated
        (app_src.registerInputEvent { uiState_ := ∅, emitted := [] }
          (InputEvent.user UserAction.UserLoadedFace))
        (InputEvent.user UserAction.UserLoadedFace)).1.2.2.1 (by decide)),
   ((registerInputEvent_equality_gated
        { uiState_ := {InterfaceAction.ActionImportFont}, emitted := [] }
        (InputEvent.user UserAction.UserIdle)).2.2.2.1 (by decide))⟩

end f2b
